import Mathlib

/-!
Verification development for the skill-editor filesystem layer (Electron
main process, `main.js`).  Absolute and relative filesystem paths are
embedded as lists of their `/`-separated segments; the rendered string
form of an absolute path `[a, b]` is `"/a/b"`.  Node's `path` functions
(`normalize`, `join`, `resolve`, `basename`, `dirname`) are translated to
segment-level functions with POSIX (`path.sep = "/"`) semantics.  The
on-disk state is embedded as a finite association list from absolute file
paths to file data; directories exist exactly where some file path extends
them (creating an empty directory is a no-op of this model).
-/

namespace SkillEditor

/-- Boolean test that `p` is an initial run of `l` (used both for path
containment of segment lists, mirroring the `startsWith(base + sep) ||
equal` check of `validateSkillPath`, and for character-level tests). -/
def listStarts {α : Type} [DecidableEq α] : List α → List α → Bool
  | [], _ => true
  | _ :: _, [] => false
  | a :: as, b :: bs => if a = b then listStarts as bs else false

/-- Character-level splitter: cuts `cs` at every separator character
(dropping the separators), keeping empty pieces.  `cur` is the reversed
current piece. -/
def splitCharsAux (isSep : Char → Bool) : List Char → List Char → List (List Char)
  | [], cur => [cur.reverse]
  | c :: cs, cur =>
    if isSep c then cur.reverse :: splitCharsAux isSep cs []
    else splitCharsAux isSep cs (c :: cur)

/-- Separator predicate of `path.normalize`/`path.join` (POSIX): only '/'. -/
def slashChar (c : Char) : Bool := c.toNat == 47

/-- Separator predicate of `sanitizeRelativePath`'s split regex
`/[/\\]+/`: '/' or '\'. -/
def sepChar (c : Char) : Bool := c.toNat == 47 || c.toNat == 92

/-- Splits a raw path string on '/' keeping empty pieces, as
`String.prototype.split('/')` does inside `path.normalize`. -/
def splitSlash (s : String) : List String :=
  (splitCharsAux slashChar s.toList []).map List.asString

/-- Splits on runs of '/' and '\': `relativePath.split(/[/\\]+/)` followed
by `.filter(Boolean)`, which drops the empty pieces. -/
def splitSeps (s : String) : List String :=
  ((splitCharsAux sepChar s.toList []).map List.asString).filter (fun t => t ≠ "")

/-- One step of Node's `path.normalize` segment scan.  The accumulator is
the reversed list of output segments.  `allowUp` tells whether unmatched
`..` segments are kept (true for relative paths) or dropped (false for
absolute paths, where `..` at the root is discarded). -/
def normStep (allowUp : Bool) (acc : List String) (s : String) : List String :=
  if s = "" ∨ s = "." then acc
  else if s = ".." then
    match acc with
    | [] => if allowUp then [".."] else []
    | a :: rest => if a = ".." then ".." :: a :: rest else rest
  else s :: acc

/-- Node `path.normalize` on a list of path segments. -/
def normSegs (allowUp : Bool) (segs : List String) : List String :=
  (segs.foldl (normStep allowUp) []).reverse

/-- String rendering of an absolute path given by its segments. -/
def pathString (segs : List String) : String :=
  segs.foldl (fun acc s => acc ++ "/" ++ s) ""

/-- Node `path.dirname` on an absolute segment list. -/
def dirnameSegs (p : List String) : List String := p.dropLast

/-- Node `path.basename` on an absolute segment list. -/
def basenameSegs (p : List String) : String := p.getLast?.getD ""

/-- Embeds `validateSkillPath(requestedPath, baseDir)` of main.js.  `isAbs`
records whether the requested path string began with '/'
(`path.isAbsolute`).  The source normalizes the request, joins a relative
request onto `baseDir`, resolves, and accepts exactly when the resolved
string equals the resolved base or extends it past a separator; on segment
lists that acceptance condition is `listStarts resolvedBase resolvedPath`. -/
def validateSkillPath (isAbs : Bool) (p : List String) (base : List String) :
    Except String (List String) :=
  let normalized := normSegs (!isAbs) p
  let resolvedPath := if isAbs then normalized else normSegs false (base ++ normalized)
  let resolvedBase := normSegs false base
  if listStarts resolvedBase resolvedPath then .ok resolvedPath
  else .error "Invalid path - access denied"

/-- Character class `[a-zA-Z0-9._-]` of `sanitizeFileName`, by codepoint. -/
def fileChar (c : Char) : Bool :=
  (65 ≤ c.toNat && c.toNat ≤ 90) || (97 ≤ c.toNat && c.toNat ≤ 122) ||
  (48 ≤ c.toNat && c.toNat ≤ 57) || c.toNat == 46 || c.toNat == 95 || c.toNat == 45

/-- Embeds `sanitizeFileName(name)`: strips every character outside
`[a-zA-Z0-9._-]`, then rejects an empty or over-long result. -/
def sanitizeFileName (name : String) : Except String String :=
  let sanitized := (name.toList.filter fileChar).asString
  if sanitized.length = 0 then
    .error "Invalid filename - must contain at least one valid character"
  else if 255 < sanitized.length then
    .error "Filename is too long (max 255 characters)"
  else .ok sanitized

/-- Per-segment pass of `sanitizeRelativePath`: sanitize each segment and
reject a result equal to `.` or `..` (the JS `map` callback throws at the
first bad segment, which this explicit recursion mirrors). -/
def sanitizeSegments : List String → Except String (List String)
  | [] => .ok []
  | seg :: rest =>
    match sanitizeFileName seg with
    | .error e => .error e
    | .ok s =>
      if s = "." ∨ s = ".." then .error "Invalid path segment"
      else
        match sanitizeSegments rest with
        | .error e => .error e
        | .ok ss => .ok (s :: ss)

/-- Embeds `sanitizeRelativePath(relativePath)`.  The result is kept as a
segment list; the source joins the sanitized segments with `path.sep`. -/
def sanitizeRelativePath (relativePath : String) : Except String (List String) :=
  if relativePath = "" then .error "Invalid path"
  else
    let segments := splitSeps relativePath
    if segments = [] then .error "Invalid path"
    else sanitizeSegments segments

/-- ASCII lower-casing of one character, as `String.prototype.toLowerCase`
acts on the ASCII range (the only range these names use). -/
def lowerChar (c : Char) : Char :=
  if 65 ≤ c.toNat ∧ c.toNat ≤ 90 then Char.ofNat (c.toNat + 32) else c

/-- String lower-casing by mapping `lowerChar` over the characters. -/
def strToLower (s : String) : String := (s.toList.map lowerChar).asString

/-- Character class `[a-z0-9-]` of `sanitizeSkillName`, by codepoint. -/
def skillChar (c : Char) : Bool :=
  (97 ≤ c.toNat && c.toNat ≤ 122) || (48 ≤ c.toNat && c.toNat ≤ 57) || c.toNat == 45

/-- Embeds `sanitizeSkillName(name)`: lower-cases, strips everything
outside `[a-z0-9-]`, rejects empty, over-long and the reserved literal. -/
def sanitizeSkillName (name : String) : Except String String :=
  let sanitized := ((name.toList.map lowerChar).filter skillChar).asString
  if sanitized.length = 0 then
    .error "Skill name must contain at least one valid character (lowercase letters, numbers, or hyphens)"
  else if 255 < sanitized.length then
    .error "Skill name is too long (max 255 characters)"
  else if sanitized = "skill" ∨ sanitized = "" then
    .error "Invalid skill name"
  else .ok sanitized

/-- Node `path.extname` on a file's base name: the suffix from the last
dot, empty when there is no dot or the only dot leads a dotfile. -/
def extname (name : String) : String :=
  let cs := name.toList
  let pre := cs.reverse.takeWhile (fun c => c ≠ '.')
  if cs.length ≤ pre.length then ""
  else if cs.length = pre.length + 1 then ""
  else ('.' :: pre.reverse).asString

/-- The fixed `EDITABLE_EXTENSIONS` allow-list. -/
def EDITABLE_EXTENSIONS : List String :=
  [".md", ".txt", ".js", ".py", ".json", ".html", ".css", ".yaml", ".yml",
   ".sh", ".bash", ".lua", ".rb", ".go", ".rs", ".ts", ".tsx", ".jsx"]

/-- `MAX_FILE_SIZE = 10 * 1024 * 1024` bytes. -/
def MAX_FILE_SIZE : Nat := 10 * 1024 * 1024

/-- Embeds `isEditableFile`: extension membership, case-insensitive.  The
argument is the path's base name (Node's `extname` only reads it). -/
def isEditableFile (name : String) : Bool :=
  EDITABLE_EXTENSIONS.contains (strToLower (extname name))

/-- Embeds `getFileType`: coarse content type from the extension. -/
def getFileType (name : String) : String :=
  let ext := strToLower (extname name)
  if [".jpg", ".jpeg", ".png", ".gif", ".webp", ".svg"].contains ext then "image"
  else if [".pdf", ".doc", ".docx", ".xls", ".xlsx"].contains ext then "document"
  else if [".mp4", ".webm", ".mov", ".avi"].contains ext then "video"
  else if [".mp3", ".wav", ".flac"].contains ext then "audio"
  else if isEditableFile name then "text"
  else "binary"

/-- Data stored for one file: its text content and its `stat` size. -/
structure FileData where
  content : String
  size : Nat
deriving DecidableEq, Repr

/-- The on-disk state: an association list from absolute file paths
(segment lists) to file data.  Directories are implicit — a directory
exists where some file path properly extends it. -/
abbrev Fs := List (List String × FileData)

/-- Content lookup of the file stored at exactly `p` (`fs.readFile`). -/
def lookupFile (fs : Fs) (p : List String) : Option FileData :=
  (fs.find? (fun e => e.1 = p)).map (fun e => e.2)

/-- Embeds `fsSync.existsSync(p)`: true when `p` is a file of the state or
a directory holding one (that is, `p` is an initial run of some file's
path). -/
def existsFs (fs : Fs) (p : List String) : Bool :=
  fs.any (fun e => listStarts p e.1)

/-- Embeds `fs.writeFile(p, c)`: replaces whatever file was at `p`.  The
model sets the stat size to the character count of the content. -/
def writeFs (fs : Fs) (p : List String) (c : String) : Fs :=
  (p, ⟨c, c.length⟩) :: fs.filter (fun e => ¬(e.1 = p))

/-- Embeds `fs.rm(p, { recursive: true, force: true })`: removes the file
at `p` and every file below `p`. -/
def rmFs (fs : Fs) (p : List String) : Fs :=
  fs.filter (fun e => ¬(listStarts p e.1 = true))

/-- Embeds `fs.rename(old, new)`: re-roots every path at or below `old`
onto `new`. -/
def renameFs (fs : Fs) (old new : List String) : Fs :=
  fs.map (fun e =>
    if listStarts old e.1 then (new ++ e.1.drop old.length, e.2) else e)

/-- Embeds the `delete-file-or-folder` IPC handler.  `skillPath` is the
absolute manifest path the renderer holds (validated against the skills
directory), `targetPath` the user-supplied relative path.  Thrown
validation errors are caught and surface as the handler's generic failure
message; the pair's second component is the state after the call. -/
def deleteFileOrFolder (skillsDir : List String) (fs : Fs) (skillPath : List String)
    (targetPath : String) : Except String Unit × Fs :=
  match validateSkillPath true skillPath skillsDir with
  | .error _ => (.error "Failed to delete file or folder", fs)
  | .ok skillDirPath =>
    let skillDir := dirnameSegs skillDirPath
    match validateSkillPath true (skillDir ++ splitSlash targetPath) skillDir with
    | .error _ => (.error "Failed to delete file or folder", fs)
    | .ok validatedPath =>
      if basenameSegs validatedPath = "SKILL.md" then
        (.error "Cannot delete SKILL.md - it is required", fs)
      else if existsFs fs validatedPath = false then
        (.error "File or folder does not exist", fs)
      else (.ok (), rmFs fs validatedPath)

/-- Embeds the `rename-file-or-folder` IPC handler: validate the old
path, sanitize the new name, refuse the manifest, compute the sibling
path, then check existence of old and new before renaming. -/
def renameFileOrFolder (skillsDir : List String) (fs : Fs) (skillPath : List String)
    (oldPath : String) (newName : String) : Except String Unit × Fs :=
  match validateSkillPath true skillPath skillsDir with
  | .error _ => (.error "Failed to rename file or folder", fs)
  | .ok skillDirPath =>
    let skillDir := dirnameSegs skillDirPath
    match validateSkillPath true (skillDir ++ splitSlash oldPath) skillDir with
    | .error _ => (.error "Failed to rename file or folder", fs)
    | .ok validatedOldPath =>
      match sanitizeFileName newName with
      | .error _ => (.error "Failed to rename file or folder", fs)
      | .ok sanitizedNewName =>
        if basenameSegs validatedOldPath = "SKILL.md" then
          (.error "Cannot rename SKILL.md", fs)
        else
          match validateSkillPath true (dirnameSegs validatedOldPath ++ [sanitizedNewName]) skillDir with
          | .error _ => (.error "Failed to rename file or folder", fs)
          | .ok validatedNewPath =>
            if existsFs fs validatedOldPath = false then
              (.error "File or folder does not exist", fs)
            else if existsFs fs validatedNewPath then
              (.error "A file or folder with that name already exists", fs)
            else (.ok (), renameFs fs validatedOldPath validatedNewPath)

/-- Embeds the `move-file` IPC handler: validate both paths, refuse the
manifest as source, then check existence of old and new before renaming
(the target's parent directory creation is a no-op of the model). -/
def moveFile (skillsDir : List String) (fs : Fs) (skillPath : List String)
    (oldPath : String) (newPath : String) : Except String Unit × Fs :=
  match validateSkillPath true skillPath skillsDir with
  | .error _ => (.error "Failed to move file", fs)
  | .ok skillDirPath =>
    let skillDir := dirnameSegs skillDirPath
    match validateSkillPath true (skillDir ++ splitSlash oldPath) skillDir with
    | .error _ => (.error "Failed to move file", fs)
    | .ok validatedOldPath =>
      match validateSkillPath true (skillDir ++ splitSlash newPath) skillDir with
      | .error _ => (.error "Failed to move file", fs)
      | .ok validatedNewPath =>
        if basenameSegs validatedOldPath = "SKILL.md" then
          (.error "Cannot move SKILL.md", fs)
        else if existsFs fs validatedOldPath = false then
          (.error "Source file does not exist", fs)
        else if existsFs fs validatedNewPath then
          (.error "A file with that name already exists in the target folder", fs)
        else (.ok (), renameFs fs validatedOldPath validatedNewPath)

/-- Metadata record returned by the `load-file` handler. -/
structure LoadFileMeta where
  name : String
  pathR : List String
  fileType : String
  size : Nat
  editable : Bool
  tooBig : Bool
deriving DecidableEq, Repr

/-- Embeds the `load-file` IPC handler: validate, check existence, stat,
then gate on `MAX_FILE_SIZE` before the editability check.  A path that
exists only as a directory stats with size 0 in the model and cannot be
read as text.  The success value is the returned content paired with the
metadata record. -/
def loadFile (skillsDir : List String) (fs : Fs) (filePath : List String) :
    Except String (String × LoadFileMeta) :=
  match validateSkillPath true filePath skillsDir with
  | .error _ => .error "Failed to load file"
  | .ok validatedPath =>
    if existsFs fs validatedPath = false then .error "File does not exist"
    else
      let nm := basenameSegs validatedPath
      match lookupFile fs validatedPath with
      | some fd =>
        if MAX_FILE_SIZE < fd.size then
          .ok ("", ⟨nm, filePath, getFileType nm, fd.size, false, true⟩)
        else if isEditableFile nm then
          .ok (fd.content, ⟨nm, filePath, getFileType nm, fd.size, true, false⟩)
        else
          .ok ("", ⟨nm, filePath, getFileType nm, fd.size, false, false⟩)
      | none =>
        if isEditableFile nm then .error "Failed to load file"
        else .ok ("", ⟨nm, filePath, getFileType nm, 0, false, false⟩)

/-- One file of an upload batch: its (possibly multi-segment) relative
name and its byte content. -/
structure UploadFile where
  name : String
  data : String
deriving DecidableEq, Repr

/-- Joins path segments with '/': the shape pushed onto `uploadedFiles`
(`sanitizedRelative.split(path.sep).join('/')`). -/
def joinSegs : List String → String
  | [] => ""
  | s :: ss => ss.foldl (fun a t => a ++ "/" ++ t) s

/-- Per-file body of the `upload-files` loop: sanitize the relative name,
validate the destination, write; any failure is swallowed and the file
skipped. -/
def uploadStep (skillDir validatedTargetPath : List String)
    (acc : List String × Fs) (file : UploadFile) : List String × Fs :=
  match sanitizeRelativePath file.name with
  | .error _ => acc
  | .ok segs =>
    match validateSkillPath true (validatedTargetPath ++ segs) skillDir with
    | .error _ => acc
    | .ok dest => (acc.1 ++ [joinSegs segs], writeFs acc.2 dest file.data)

/-- Embeds the `upload-files` IPC handler.  The success value is the pair
of uploaded names and their count. -/
def uploadFiles (skillsDir : List String) (fs : Fs) (skillPath : List String)
    (files : List UploadFile) (targetFolder : String) :
    Except String (List String × Nat) × Fs :=
  match validateSkillPath true skillPath skillsDir with
  | .error _ => (.error "Failed to upload files", fs)
  | .ok skillDirPath =>
    let skillDir := dirnameSegs skillDirPath
    let targetPath := if targetFolder = "" then skillDir else skillDir ++ splitSlash targetFolder
    match validateSkillPath true targetPath skillDir with
    | .error _ => (.error "Failed to upload files", fs)
    | .ok validatedTargetPath =>
      let r := files.foldl (uploadStep skillDir validatedTargetPath) ([], fs)
      (.ok (r.1, r.1.length), r.2)

/-- Result record of the `load-skill` handler (`skillName` is set only on
the import path). -/
structure LoadSkillResult where
  content : String
  pathR : List String
  imported : Bool
  skillName : Option String
deriving DecidableEq, Repr

/-- The `while (existsSync(...))` suffix search of the import path,
written with explicit fuel: tries `base-suffix`, `base-(suffix+1)`, …
until a bundle directory without a manifest is found. -/
def freeNameLoop (fs : Fs) (skillsDir : List String) (base : String) :
    Nat → Nat → String
  | 0, suffix => base ++ "-" ++ toString suffix
  | fuel + 1, suffix =>
    let candidate := base ++ "-" ++ toString suffix
    if existsFs fs (skillsDir ++ [candidate, "SKILL.md"]) then
      freeNameLoop fs skillsDir base fuel (suffix + 1)
    else candidate

/-- Collision-safe bundle name: `base` itself when free, else the first
free `base-n`.  Fuel `fs.length + 1` covers every occupied name, since
distinct occupied candidates need distinct file entries. -/
def findFreeSkillName (fs : Fs) (skillsDir : List String) (base : String) : String :=
  if existsFs fs (skillsDir ++ [base, "SKILL.md"]) = false then base
  else freeNameLoop fs skillsDir base (fs.length + 1) 1

/-- Embeds the `load-skill` IPC handler.  The managed branch loads a
manifest inside the skills directory; when validation fails with the
sandbox error the import branch adopts an external `SKILL.md`
(case-insensitive base-name check), deriving the bundle name from the
parent directory (timestamp fallback `now` when that name sanitizes to
nothing) and copying the manifest under the first collision-free name.
`path.resolve` is modelled for absolute inputs, the only ones the claims
exercise. -/
def loadSkill (skillsDir : List String) (fs : Fs) (now : Nat) (isAbs : Bool)
    (p : List String) : Except String LoadSkillResult × Fs :=
  match validateSkillPath isAbs p skillsDir with
  | .ok validatedPath =>
    if existsFs fs validatedPath = false then (.error "Skill file does not exist", fs)
    else
      match lookupFile fs validatedPath with
      | none => (.error "Failed to load skill", fs)
      | some fd => (.ok ⟨fd.content, validatedPath, false, none⟩, fs)
  | .error _ =>
    let resolvedPath := normSegs false p
    if existsFs fs resolvedPath = false then (.error "Skill file does not exist", fs)
    else if ¬(strToLower (basenameSegs resolvedPath) = "skill.md") then
      (.error "Only SKILL.md files can be imported", fs)
    else
      match lookupFile fs resolvedPath with
      | none => (.error "Failed to load skill", fs)
      | some fd =>
        let parentName := basenameSegs (dirnameSegs resolvedPath)
        let sanitizedName :=
          match sanitizeSkillName parentName with
          | .ok n => n
          | .error _ =>
            match sanitizeSkillName ("imported-skill-" ++ toString now) with
            | .ok n => n
            | .error _ => ""
        let candidateName := findFreeSkillName fs skillsDir sanitizedName
        let targetPath := skillsDir ++ [candidateName, "SKILL.md"]
        (.ok ⟨fd.content, targetPath, true, some candidateName⟩, writeFs fs targetPath fd.content)

/-- JS `\s` on the characters these files use: space, tab, LF, CR,
vertical tab, form feed. -/
def wsChar (c : Char) : Bool :=
  c.toNat == 32 || c.toNat == 9 || c.toNat == 10 || c.toNat == 13 ||
  c.toNat == 11 || c.toNat == 12

/-- JS line terminators: the characters `.` cannot match and multiline
`$` matches before (LF, CR, LS, PS). -/
def lineTermChar (c : Char) : Bool :=
  c.toNat == 10 || c.toNat == 13 || c.toNat == 8232 || c.toNat == 8233

/-- JS `String.prototype.trim`. -/
def jsTrim (s : String) : String :=
  (((s.toList.dropWhile wsChar).reverse.dropWhile wsChar).reverse).asString

/-- JS `String.prototype.substring(0, n)`. -/
def takeChars (n : Nat) (s : String) : String := (s.toList.take n).asString

/-- Rejoins lines with newlines. -/
def joinNL : List String → String
  | [] => ""
  | l :: ls => ls.foldl (fun a t => a ++ "\n" ++ t) l

/-- Splits a string at every newline, keeping empty lines. -/
def splitNL (s : String) : List String :=
  (splitCharsAux (fun c => c == '\n') s.toList []).map List.asString

/-- The literal `description:` as characters. -/
def descKeyChars : List Char := ['d', 'e', 's', 'c', 'r', 'i', 'p', 't', 'i', 'o', 'n', ':']

/-- Capture of `\s*(.+?)(?:\n|$)` against the text after `description:`.
Greedy `\s*` starts maximal and backtracks: the lazy group begins at the
largest position inside the whitespace run (or right after it) holding a
character `.` can match, i.e. a non-line-terminator, and then grows until
the next line terminator or the end of the text.  When text follows the
whitespace run, the group starts there and captures the rest of that
line; when the whole remaining text is whitespace, the group captures the
last whitespace character that is not itself a line terminator (a space
or tab, trimmed away later by the handler), and when even that does not
exist the match at this candidate fails. -/
def descCapture (cs : List Char) : Option (List Char) :=
  let w := cs.takeWhile wsChar
  let r := cs.drop w.length
  if r ≠ [] then some (r.takeWhile (fun c => !(lineTermChar c)))
  else
    match w.reverse.dropWhile lineTermChar with
    | [] => none
    | c :: _ => some [c]

/-- First match of `/^description:\s*(.+?)(?:\n|$)/m` over the manifest's
lines (`^` is anchored at LF boundaries, the line convention of these
manifests): at each line starting with `description:`, the rest of the
content is matched by `descCapture`; on failure the scan moves to the
next candidate line. -/
def descMatchLines : List String → Option String
  | [] => none
  | l :: ls =>
    if listStarts descKeyChars l.toList then
      let tail := (l.toList.drop 12).asString
      match descCapture (joinNL (tail :: ls)).toList with
      | some cap => some cap.asString
      | none => descMatchLines ls
    else descMatchLines ls

/-- The regex capture of the `list-skills` description extraction. -/
def descMatch (content : String) : Option String := descMatchLines (splitNL content)

/-- Description reported by `list-skills`: the first capture trimmed and
truncated to 200 characters, or the placeholder. -/
def descriptionOf (content : String) : String :=
  match descMatch content with
  | some cap => takeChars 200 (jsTrim cap)
  | none => "No description"

/-- One entry of the `list-skills` result. -/
structure SkillInfo where
  name : String
  pathR : List String
  description : String
deriving DecidableEq, Repr

/-- Names of the immediate subdirectories of the skills directory, as
`readdir(skillsDir).filter(isDirectory)` sees them in the file-map model:
first segments extended by at least one more segment, in first-occurrence
order. -/
def bundleNames (skillsDir : List String) (fs : Fs) : List String :=
  (fs.filterMap (fun e =>
    if listStarts skillsDir e.1 then
      match e.1.drop skillsDir.length with
      | d :: _ :: _ => some d
      | _ => none
    else none)).dedup

/-- Embeds the `list-skills` IPC handler: per bundle directory, validate
the name and manifest path, read the manifest and extract the
description; a failing bundle is skipped. -/
def listSkills (skillsDir : List String) (fs : Fs) : List SkillInfo :=
  (bundleNames skillsDir fs).filterMap (fun d =>
    match sanitizeSkillName d with
    | .error _ => none
    | .ok _ =>
      match validateSkillPath true (skillsDir ++ [d, "SKILL.md"]) skillsDir with
      | .error _ => none
      | .ok mpath =>
        match lookupFile fs mpath with
        | none => none
        | some fd => some ⟨d, mpath, descriptionOf fd.content⟩)

/-- A directory entry as the tree builder's directory-listing abstraction
sees it: a file with its stat size, or a subdirectory with its entries. -/
inductive FsEntry where
  | file (name : String) (size : Nat) : FsEntry
  | dir (name : String) (entries : List FsEntry) : FsEntry
deriving Repr

/-- The entry's name. -/
def entryName : FsEntry → String
  | .file n _ => n
  | .dir n _ => n

/-- A node of the tree returned by `buildFileTree`; `pathR` is the
'/'-joined path relative to the bundle root. -/
inductive TreeNode where
  | file (name : String) (pathR : String) (fileType : String) (size : Nat)
      (editable : Bool) : TreeNode
  | folder (name : String) (pathR : String) (children : List TreeNode) : TreeNode
deriving Repr

/-- The node's name. -/
def nodeName : TreeNode → String
  | .file n _ _ _ _ => n
  | .folder n _ _ => n

/-- Whether the node is a folder. -/
def nodeIsFolder : TreeNode → Bool
  | .file _ _ _ _ _ => false
  | .folder _ _ _ => true

/-- Lexicographic comparison of character lists by codepoint, the order
`a.localeCompare(b)` is modelled with. -/
def strLeList : List Char → List Char → Bool
  | [], _ => true
  | _ :: _, [] => false
  | a :: as, b :: bs =>
    if a.toNat < b.toNat then true
    else if b.toNat < a.toNat then false
    else strLeList as bs

/-- String comparison used for the name ordering of the tree. -/
def strLeB (a b : String) : Bool := strLeList a.toList b.toList

/-- The total preorder the sort comparator of `buildFileTree` realizes:
folders before files, names ascending inside a kind. -/
def nodeLeB (a b : TreeNode) : Bool :=
  if nodeIsFolder a = nodeIsFolder b then strLeB (nodeName a) (nodeName b)
  else nodeIsFolder a

/-- `nodeLeB` as a relation for `List.insertionSort`. -/
def nodeLe (a b : TreeNode) : Prop := nodeLeB a b = true

instance : DecidableRel nodeLe := fun a b => instDecidableEqBool (nodeLeB a b) true

/-- Hidden entries (leading dot) and the dependency cache are skipped. -/
def skipEntry (name : String) : Bool :=
  listStarts ['.'] name.toList || name = "node_modules"

/-- The child's relative path (`relativePath ? path.join(relativePath,
entry.name) : entry.name`). -/
def childPath (rel name : String) : String :=
  if rel = "" then name else rel ++ "/" ++ name

mutual

/-- Node built for one kept directory entry of `buildFileTree`. -/
def buildNode (rel : String) : FsEntry → TreeNode
  | .file n sz => .file n (childPath rel n) (getFileType n) sz (isEditableFile n)
  | .dir n cs =>
    .folder n (childPath rel n)
      (List.insertionSort nodeLe (collectNodes (childPath rel n) cs))

/-- The loop of `buildFileTree`: skip hidden entries and `node_modules`,
build a node per kept entry, in listing order (each level is sorted
afterwards; the JS engine's stable comparator sort is modelled by
insertion sort). -/
def collectNodes (rel : String) : List FsEntry → List TreeNode
  | [] => []
  | e :: es =>
    if skipEntry (entryName e) then collectNodes rel es
    else buildNode rel e :: collectNodes rel es

end

/-- Embeds `buildFileTree(dirPath, skillDirPath)` on the listed entries of
the bundle directory. -/
def buildFileTree (es : List FsEntry) : List TreeNode :=
  List.insertionSort nodeLe (collectNodes "" es)

/-!  General lemmas about the embedded definitions. -/

/-- Characters of the skill-name class are fixed by ASCII lower-casing. -/
theorem lowerChar_fixed_of_skillChar {c : Char} (h : skillChar c = true) :
    lowerChar c = c := by
  have hc : ((97 ≤ c.toNat ∧ c.toNat ≤ 122) ∨ (48 ≤ c.toNat ∧ c.toNat ≤ 57)) ∨ c.toNat = 45 := by
    simpa [skillChar] using h
  unfold lowerChar
  rw [if_neg]
  omega

/-- Unfolding of a successful `sanitizeSkillName`: the output is the
filtered lower-cased character list, nonempty, short, and not reserved. -/
theorem sanitizeSkillName_ok_iff (x y : String) :
    sanitizeSkillName x = .ok y ↔
      y = ((x.toList.map lowerChar).filter skillChar).asString ∧
      ¬(y.length = 0) ∧ ¬(255 < y.length) ∧ ¬(y = "skill" ∨ y = "") := by
  simp only [sanitizeSkillName]
  constructor
  · intro h
    split at h
    · exact absurd h (by simp)
    · split at h
      · exact absurd h (by simp)
      · split at h
        · exact absurd h (by simp)
        · rename_i h1 h2 h3
          have hy : y = ((x.toList.map lowerChar).filter skillChar).asString := by
            simpa [eq_comm] using h
          subst hy
          exact ⟨rfl, h1, h2, h3⟩
  · rintro ⟨hy, h1, h2, h3⟩
    subst hy
    rw [if_neg h1, if_neg h2, if_neg h3]


/-- Claim C9 (confirmed).  `sanitizeSkillName` is idempotent on every
input on which it succeeds, and every successful output is a nonempty
string of characters from `[a-z0-9-]` that differs from the reserved
literal `skill`. -/
theorem sanitizeSkillName_idempotent_and_valid (x y : String)
    (h : sanitizeSkillName x = .ok y) :
    sanitizeSkillName y = .ok y ∧ y ≠ "" ∧
      (∀ c ∈ y.toList, skillChar c = true) ∧ y ≠ "skill" := by
  rcases (sanitizeSkillName_ok_iff x y).mp h with ⟨hy, h1, h2, h3⟩
  have hne : y ≠ "skill" ∧ y ≠ "" := by
    constructor <;> intro hc <;> exact h3 (by simp [hc])
  have hchars : ∀ c ∈ y.toList, skillChar c = true := by
    intro c hc
    rw [hy] at hc
    exact (List.mem_filter.mp hc).2
  have hfix : (y.toList.map lowerChar).filter skillChar = y.toList := by
    have hmap : y.toList.map lowerChar = y.toList := by
      rw [List.map_congr_left (fun c hc => lowerChar_fixed_of_skillChar (hchars c hc))]
      exact List.map_id y.toList
    rw [hmap]
    exact List.filter_eq_self.mpr hchars
  refine ⟨?_, hne.2, hchars, hne.1⟩
  refine (sanitizeSkillName_ok_iff y y).mpr ⟨?_, h1, h2, h3⟩
  rw [hfix]
  exact rfl

/-- A path segment that survives normalization unchanged: nonempty and
neither `.` nor `..`. -/
def cleanSeg (s : String) : Bool := !(s = "") && !(s = ".") && !(s = "..")

/-- All segments clean. -/
def cleanSegs (l : List String) : Bool := l.all cleanSeg

theorem normStep_clean {a : Bool} {acc : List String} {s : String}
    (h : cleanSeg s = true) : normStep a acc s = s :: acc := by
  have hs : (¬(s = "") ∧ ¬(s = ".")) ∧ ¬(s = "..") := by simpa [cleanSeg] using h
  unfold normStep
  rw [if_neg (by tauto), if_neg hs.2]

theorem foldl_normStep_clean {a : Bool} {l : List String}
    (h : cleanSegs l = true) :
    ∀ acc, l.foldl (normStep a) acc = l.reverse ++ acc := by
  induction l with
  | nil => intro acc; rfl
  | cons s rest ih =>
    intro acc
    have hs : cleanSeg s = true ∧ cleanSegs rest = true := by
      simpa [cleanSegs] using h
    rw [List.foldl_cons, normStep_clean hs.1, ih hs.2]
    simp

/-- Normalization fixes a clean segment list. -/
theorem normSegs_clean {a : Bool} {l : List String} (h : cleanSegs l = true) :
    normSegs a l = l := by
  unfold normSegs
  rw [foldl_normStep_clean h]
  simp

theorem listStarts_append {α : Type} [DecidableEq α] (l m : List α) :
    listStarts l (l ++ m) = true := by
  induction l with
  | nil => rfl
  | cons a as ih => simpa [listStarts] using ih

theorem listStarts_length {α : Type} [DecidableEq α] :
    ∀ {a b : List α}, listStarts a b = true → a.length ≤ b.length := by
  intro a
  induction a with
  | nil => intro b _; simp
  | cons x xs ih =>
    intro b h
    cases b with
    | nil => exact absurd h (by simp [listStarts])
    | cons y ys =>
      rw [listStarts] at h
      split at h
      · simpa using ih h
      · exact absurd h (by simp)

/-- A successful containment check exposes the tail. -/
theorem listStarts_iff_append {α : Type} [DecidableEq α] :
    ∀ {a b : List α}, listStarts a b = true ↔ ∃ t, b = a ++ t := by
  intro a
  induction a with
  | nil => intro b; simp [listStarts]
  | cons x xs ih =>
    intro b
    cases b with
    | nil => simp [listStarts]
    | cons y ys =>
      rw [listStarts]
      constructor
      · intro h
        split at h
        · rename_i hxy
          rcases ih.mp h with ⟨t, ht⟩
          exact ⟨t, by rw [hxy, ht]; rfl⟩
        · exact absurd h (by simp)
      · rintro ⟨t, ht⟩
        rw [List.cons_append] at ht
        injection ht with h1 h2
        rw [if_pos h1.symm]
        exact ih.mpr ⟨t, h2⟩

/-- Validation always accepts a clean extension of the base directory and
returns it unchanged. -/
theorem validateSkillPath_clean_ok {base rest : List String}
    (hb : cleanSegs base = true) (hr : cleanSegs rest = true) :
    validateSkillPath true (base ++ rest) base = .ok (base ++ rest) := by
  have hall : cleanSegs (base ++ rest) = true := by
    simp only [cleanSegs, List.all_append] at hb hr ⊢
    simp [hb, hr]
  unfold validateSkillPath
  simp only [Bool.not_true, normSegs_clean hall, normSegs_clean hb, eq_self_iff_true, if_true]
  rw [if_pos (listStarts_append base rest)]

theorem foldl_append_chunks (rs : List String) :
    ∀ a : String, ∃ t, rs.foldl (fun acc s => acc ++ "/" ++ s) a = a ++ t := by
  induction rs with
  | nil => intro a; exact ⟨"", by simp⟩
  | cons r rest ih =>
    intro a
    rcases ih (a ++ "/" ++ r) with ⟨t, ht⟩
    refine ⟨"/" ++ r ++ t, ?_⟩
    rw [List.foldl_cons, ht]
    simp [String.append_assoc]

/-- Rendering an extended path only appends to the base's rendering. -/
theorem pathString_append (base l : List String) :
    pathString (base ++ l) = pathString base ∨
      ∃ t, pathString (base ++ l) = pathString base ++ "/" ++ t := by
  cases l with
  | nil => left; simp
  | cons r rest =>
    right
    unfold pathString
    rw [List.foldl_append, List.foldl_cons]
    rcases foldl_append_chunks rest (List.foldl (fun acc s => acc ++ "/" ++ s) "" base ++ "/" ++ r) with ⟨t, ht⟩
    refine ⟨r ++ t, ?_⟩
    rw [ht]
    simp [String.append_assoc]

theorem normStep_dotdot_all {acc : List String} (h : ∀ s ∈ acc, s = "..") :
    normStep true acc ".." = ".." :: acc := by
  unfold normStep
  rw [if_neg (by simp)]
  cases acc with
  | nil => simp
  | cons a rest =>
    have : a = ".." := h a (by simp)
    simp [this]

theorem foldl_normStep_dotdot_true :
    ∀ (k : Nat) (acc : List String), (∀ s ∈ acc, s = "..") →
      (List.replicate k "..").foldl (normStep true) acc =
        List.replicate k ".." ++ acc := by
  intro k
  induction k with
  | zero => intro acc _; rfl
  | succ n ih =>
    intro acc h
    rw [List.replicate_succ, List.foldl_cons, normStep_dotdot_all h]
    rw [ih (".." :: acc) (by intro s hs; rcases List.mem_cons.mp hs with h1 | h2; exact h1; exact h s h2)]
    have hshuffle : List.replicate n ".." ++ ".." :: acc =
        (List.replicate n ".." ++ [".."]) ++ acc := by simp
    rw [hshuffle, ← List.replicate_succ' n, List.replicate_succ]

theorem normSegs_replicate_dotdot (k : Nat) :
    normSegs true (List.replicate k "..") = List.replicate k ".." := by
  unfold normSegs
  rw [foldl_normStep_dotdot_true k [] (by simp)]
  simp

theorem foldl_normStep_drop :
    ∀ (k : Nat) (acc : List String), (∀ s ∈ acc, ¬(s = "..")) →
      (List.replicate k "..").foldl (normStep false) acc = acc.drop k := by
  intro k
  induction k with
  | zero => intro acc _; rfl
  | succ n ih =>
    intro acc h
    rw [List.replicate_succ, List.foldl_cons]
    cases acc with
    | nil =>
      have hstep : normStep false [] ".." = [] := by unfold normStep; simp
      rw [hstep, ih [] (by simp)]
      simp
    | cons a rest =>
      have hstep : normStep false (a :: rest) ".." = rest := by
        unfold normStep
        rw [if_neg (by simp)]
        simp [h a (by simp)]
      rw [hstep, ih rest (by intro s hs; exact h s (by simp [hs]))]
      rfl

theorem foldl_normStep_no_dotdot {a : Bool} :
    ∀ (l : List String) (acc : List String), ¬(".." ∈ l) →
      l.foldl (normStep a) acc = (l.filter cleanSeg).reverse ++ acc := by
  intro l
  induction l with
  | nil => intro acc _; rfl
  | cons s rest ih =>
    intro acc h
    have hs2 : ¬(s = "..") := by intro hc; exact h (by simp [hc])
    have hrest : ¬(".." ∈ rest) := by intro hc; exact h (by simp [hc])
    rw [List.foldl_cons]
    by_cases hs : s = "" ∨ s = "."
    · have hstep : normStep a acc s = acc := by unfold normStep; rw [if_pos hs]
      have hcl : cleanSeg s = false := by
        rcases hs with h1 | h1 <;> simp [cleanSeg, h1]
      rw [hstep, ih acc hrest, List.filter_cons_of_neg (by simp [hcl])]
    · have hcl : cleanSeg s = true := by
        push_neg at hs
        simp [cleanSeg, hs.1, hs.2, hs2]
      rw [normStep_clean hcl, ih (s :: acc) hrest, List.filter_cons_of_pos hcl]
      simp

theorem normSegs_no_dotdot {a : Bool} {l : List String} (h : ¬(".." ∈ l)) :
    normSegs a l = l.filter cleanSeg := by
  unfold normSegs
  rw [foldl_normStep_no_dotdot l [] h]
  simp

theorem cleanSegs_filter (l : List String) : cleanSegs (l.filter cleanSeg) = true := by
  simp only [cleanSegs, List.all_eq_true]
  intro s hs
  exact (List.mem_filter.mp hs).2

/-- Claim C1 (corrected).  A relative path consisting solely of `../`
segments (one or more) is rejected with the sandbox-escape error; a
relative path without traversal segments is accepted and resolves to an
absolute path whose string form has the base directory's string form as a
prefix (equal, or extended past a separator).  The original claim's
universal rejection of every path merely containing `../` is refuted by
`validateSkillPath_dotdot_counterexample`. -/
theorem validateSkillPath_traversal (base : List String)
    (hb : ¬(base = [])) (hclean : cleanSegs base = true) :
    (∀ k, 0 < k →
      validateSkillPath false (List.replicate k "..") base =
        .error "Invalid path - access denied") ∧
    (∀ p : List String, ¬(".." ∈ p) →
      ∃ r, validateSkillPath false p base = .ok r ∧
        (pathString r = pathString base ∨
          ∃ t, pathString r = pathString base ++ "/" ++ t)) := by
  have hbase_rev : ∀ s ∈ base.reverse, ¬(s = "..") := by
    intro s hs hc
    have hmem : s ∈ base := List.mem_reverse.mp hs
    have := (List.all_eq_true.mp hclean) s hmem
    simp [cleanSeg, hc] at this
  constructor
  · intro k hk
    unfold validateSkillPath
    simp only [Bool.not_false, Bool.false_eq_true, if_false, normSegs_replicate_dotdot,
      normSegs_clean hclean]
    have hres : normSegs false (base ++ List.replicate k "..") =
        (base.reverse.drop k).reverse := by
      unfold normSegs
      rw [List.foldl_append]
      rw [show List.foldl (normStep false) [] base = base.reverse by
        rw [foldl_normStep_clean hclean []]; simp]
      rw [foldl_normStep_drop k base.reverse hbase_rev]
    rw [hres]
    have hlen : ((base.reverse.drop k).reverse).length < base.length := by
      simp only [List.length_reverse, List.length_drop]
      have : 1 ≤ base.length := by
        cases base with
        | nil => exact absurd rfl hb
        | cons x xs => simp
      omega
    have hnot : ¬(listStarts base ((base.reverse.drop k).reverse) = true) := by
      intro hc
      exact absurd (listStarts_length hc) (by omega)
    rw [if_neg hnot]
  · intro p hp
    unfold validateSkillPath
    simp only [Bool.not_false, Bool.false_eq_true, if_false, normSegs_no_dotdot hp,
      normSegs_clean hclean]
    have hall : cleanSegs (base ++ p.filter cleanSeg) = true := by
      simp only [cleanSegs, List.all_append, Bool.and_eq_true]
      exact ⟨hclean, cleanSegs_filter p⟩
    rw [normSegs_clean hall, if_pos (listStarts_append base (p.filter cleanSeg))]
    exact ⟨base ++ p.filter cleanSeg, rfl, pathString_append base (p.filter cleanSeg)⟩

/-- Claim C1's counterexample: `a/../b` contains a `../` segment, yet
`validateSkillPath` accepts it (it normalizes to `b` under the base). -/
theorem validateSkillPath_dotdot_counterexample :
    (".." ∈ splitSlash "a/../b") ∧
    validateSkillPath false (splitSlash "a/../b") ["home", "user", "skills"] =
      .ok ["home", "user", "skills", "b"] :=
  ⟨by decide, rfl⟩

/-- Witness for `validateSkillPath_traversal` at a concrete base, escape
depth and clean path. -/
theorem validateSkillPath_traversal_witness :
    validateSkillPath false (List.replicate 2 "..") ["home", "user", "skills"] =
      .error "Invalid path - access denied" ∧
    ∃ r, validateSkillPath false ["docs", "a.txt"] ["home", "user", "skills"] = .ok r ∧
      (pathString r = pathString ["home", "user", "skills"] ∨
        ∃ t, pathString r = pathString ["home", "user", "skills"] ++ "/" ++ t) :=
  ⟨(validateSkillPath_traversal ["home", "user", "skills"] (by decide) (by decide)).1
      2 (by decide),
   (validateSkillPath_traversal ["home", "user", "skills"] (by decide) (by decide)).2
      ["docs", "a.txt"] (by decide)⟩

theorem dirnameSegs_concat (l : List String) (a : String) :
    dirnameSegs (l ++ [a]) = l := List.dropLast_concat

theorem basenameSegs_concat (l : List String) (a : String) :
    basenameSegs (l ++ [a]) = a := by
  unfold basenameSegs
  rw [List.getLast?_concat]
  rfl

theorem cleanSegs_append {l m : List String} (hl : cleanSegs l = true)
    (hm : cleanSegs m = true) : cleanSegs (l ++ m) = true := by
  simp only [cleanSegs, List.all_append, Bool.and_eq_true]
  exact ⟨hl, hm⟩

theorem cleanSegs_cons {s : String} {l : List String} (hs : cleanSeg s = true)
    (hl : cleanSegs l = true) : cleanSegs (s :: l) = true := by
  simp only [cleanSegs, List.all_cons, Bool.and_eq_true]
  exact ⟨hs, hl⟩

/-- Claim C2 (confirmed).  For every bundle and state, deleting or
renaming the manifest path `SKILL.md` fails with the protected-file error
and leaves the filesystem state untouched (the new name may be any name
that sanitizes successfully, as `X.md` does). -/
theorem manifest_protected (sd : List String) (b : String) (fs : Fs)
    (newName m : String) (hsd : cleanSegs sd = true) (hb : cleanSeg b = true)
    (hnew : sanitizeFileName newName = .ok m) :
    deleteFileOrFolder sd fs (sd ++ [b, "SKILL.md"]) "SKILL.md" =
      (.error "Cannot delete SKILL.md - it is required", fs) ∧
    renameFileOrFolder sd fs (sd ++ [b, "SKILL.md"]) "SKILL.md" newName =
      (.error "Cannot rename SKILL.md", fs) := by
  have hbl : cleanSegs [b, "SKILL.md"] = true :=
    cleanSegs_cons hb (by decide)
  have hv1 : validateSkillPath true (sd ++ [b, "SKILL.md"]) sd =
      .ok (sd ++ [b, "SKILL.md"]) := validateSkillPath_clean_ok hsd hbl
  have hsplit : sd ++ [b, "SKILL.md"] = (sd ++ [b]) ++ ["SKILL.md"] := by simp
  have hdir : dirnameSegs (sd ++ [b, "SKILL.md"]) = sd ++ [b] := by
    rw [hsplit]
    exact dirnameSegs_concat _ _
  have hsdb : cleanSegs (sd ++ [b]) = true :=
    cleanSegs_append hsd (cleanSegs_cons hb (by decide))
  have hv2 : validateSkillPath true ((sd ++ [b]) ++ splitSlash "SKILL.md") (sd ++ [b]) =
      .ok ((sd ++ [b]) ++ ["SKILL.md"]) := by
    rw [show splitSlash "SKILL.md" = ["SKILL.md"] from rfl]
    exact validateSkillPath_clean_ok hsdb (by decide)
  have hbase : basenameSegs ((sd ++ [b]) ++ ["SKILL.md"]) = "SKILL.md" :=
    basenameSegs_concat _ _
  constructor
  · simp only [deleteFileOrFolder, hv1, hdir, hv2, hbase]
    simp
  · simp only [renameFileOrFolder, hv1, hdir, hv2, hnew, hbase]
    simp

/-- Witness for `manifest_protected` at a concrete skills directory,
bundle, state and new name. -/
theorem manifest_protected_witness :
    deleteFileOrFolder ["home", "u", "skills"] [] (["home", "u", "skills"] ++ ["demo", "SKILL.md"]) "SKILL.md" =
      (.error "Cannot delete SKILL.md - it is required", []) ∧
    renameFileOrFolder ["home", "u", "skills"] [] (["home", "u", "skills"] ++ ["demo", "SKILL.md"]) "SKILL.md" "X.md" =
      (.error "Cannot rename SKILL.md", []) :=
  manifest_protected ["home", "u", "skills"] "demo" [] "X.md" "X.md"
    (by decide) (by decide) rfl

/-- Claim C5 (confirmed).  With `a.txt` and `b.txt` both present in the
same folder of a bundle, renaming `a.txt` to `b.txt` fails with the
already-exists error and returns the filesystem state unchanged. -/
theorem rename_collision (sd : List String) (b : String) (fs : Fs)
    (hsd : cleanSegs sd = true) (hb : cleanSeg b = true)
    (ha : existsFs fs ((sd ++ [b]) ++ ["a.txt"]) = true)
    (hbt : existsFs fs ((sd ++ [b]) ++ ["b.txt"]) = true) :
    renameFileOrFolder sd fs (sd ++ [b, "SKILL.md"]) "a.txt" "b.txt" =
      (.error "A file or folder with that name already exists", fs) := by
  have hv1 : validateSkillPath true (sd ++ [b, "SKILL.md"]) sd =
      .ok (sd ++ [b, "SKILL.md"]) :=
    validateSkillPath_clean_ok hsd (cleanSegs_cons hb (by decide))
  have hdir : dirnameSegs (sd ++ [b, "SKILL.md"]) = sd ++ [b] := by
    rw [show sd ++ [b, "SKILL.md"] = (sd ++ [b]) ++ ["SKILL.md"] by simp]
    exact dirnameSegs_concat _ _
  have hsdb : cleanSegs (sd ++ [b]) = true :=
    cleanSegs_append hsd (cleanSegs_cons hb (by decide))
  have hvold : validateSkillPath true ((sd ++ [b]) ++ splitSlash "a.txt") (sd ++ [b]) =
      .ok ((sd ++ [b]) ++ ["a.txt"]) := by
    rw [show splitSlash "a.txt" = ["a.txt"] from rfl]
    exact validateSkillPath_clean_ok hsdb (by decide)
  have hbase : basenameSegs ((sd ++ [b]) ++ ["a.txt"]) = "a.txt" :=
    basenameSegs_concat _ _
  have hdir2 : dirnameSegs ((sd ++ [b]) ++ ["a.txt"]) = sd ++ [b] :=
    dirnameSegs_concat _ _
  have hvnew : validateSkillPath true ((sd ++ [b]) ++ ["b.txt"]) (sd ++ [b]) =
      .ok ((sd ++ [b]) ++ ["b.txt"]) :=
    validateSkillPath_clean_ok hsdb (by decide)
  simp only [renameFileOrFolder, hv1, hdir, hvold,
    show sanitizeFileName "b.txt" = .ok "b.txt" from rfl, hbase, hdir2, hvnew, ha, hbt]
  simp

/-- Witness for `rename_collision` at a concrete bundle and state. -/
theorem rename_collision_witness :
    renameFileOrFolder ["home", "u", "skills"]
      [(["home", "u", "skills", "demo", "a.txt"], ⟨"A", 1⟩),
       (["home", "u", "skills", "demo", "b.txt"], ⟨"B", 1⟩)]
      (["home", "u", "skills"] ++ ["demo", "SKILL.md"]) "a.txt" "b.txt" =
      (.error "A file or folder with that name already exists",
       [(["home", "u", "skills", "demo", "a.txt"], ⟨"A", 1⟩),
        (["home", "u", "skills", "demo", "b.txt"], ⟨"B", 1⟩)]) :=
  rename_collision ["home", "u", "skills"] "demo" _ (by decide) (by decide) rfl rfl

/-- Claim C10 (confirmed).  For a target relative path that validates
inside the bundle (and, for rename, a new name that sanitizes), each of
the three mutating handlers raises its protected-file error exactly when
the base name of the resolved target is the case-sensitive string
`SKILL.md`, at any depth; for move, the new path is also assumed to
validate, since the source validates it before the protected check. -/
theorem protected_iff_basename (sd : List String) (b : String) (fs : Fs)
    (target newName m newPath : String)
    (hsd : cleanSegs sd = true) (hb : cleanSeg b = true)
    (ht : cleanSegs (splitSlash target) = true)
    (hnew : sanitizeFileName newName = .ok m)
    (hnp : cleanSegs (splitSlash newPath) = true) :
    ((deleteFileOrFolder sd fs (sd ++ [b, "SKILL.md"]) target).1 =
        .error "Cannot delete SKILL.md - it is required" ↔
      basenameSegs ((sd ++ [b]) ++ splitSlash target) = "SKILL.md") ∧
    ((renameFileOrFolder sd fs (sd ++ [b, "SKILL.md"]) target newName).1 =
        .error "Cannot rename SKILL.md" ↔
      basenameSegs ((sd ++ [b]) ++ splitSlash target) = "SKILL.md") ∧
    ((moveFile sd fs (sd ++ [b, "SKILL.md"]) target newPath).1 =
        .error "Cannot move SKILL.md" ↔
      basenameSegs ((sd ++ [b]) ++ splitSlash target) = "SKILL.md") := by
  have hv1 : validateSkillPath true (sd ++ [b, "SKILL.md"]) sd =
      .ok (sd ++ [b, "SKILL.md"]) :=
    validateSkillPath_clean_ok hsd (cleanSegs_cons hb (by decide))
  have hdir : dirnameSegs (sd ++ [b, "SKILL.md"]) = sd ++ [b] := by
    rw [show sd ++ [b, "SKILL.md"] = (sd ++ [b]) ++ ["SKILL.md"] by simp]
    exact dirnameSegs_concat _ _
  have hsdb : cleanSegs (sd ++ [b]) = true :=
    cleanSegs_append hsd (cleanSegs_cons hb (by decide))
  have hvt : validateSkillPath true ((sd ++ [b]) ++ splitSlash target) (sd ++ [b]) =
      .ok ((sd ++ [b]) ++ splitSlash target) :=
    validateSkillPath_clean_ok hsdb ht
  have hvnp : validateSkillPath true ((sd ++ [b]) ++ splitSlash newPath) (sd ++ [b]) =
      .ok ((sd ++ [b]) ++ splitSlash newPath) :=
    validateSkillPath_clean_ok hsdb hnp
  refine ⟨?_, ?_, ?_⟩
  · simp only [deleteFileOrFolder, hv1, hdir, hvt]
    by_cases hsk : basenameSegs (sd ++ b :: splitSlash target) = "SKILL.md"
    · simp [hsk]
    · cases hex : existsFs fs (sd ++ b :: splitSlash target) <;> simp [hsk, hex]
  · simp only [renameFileOrFolder, hv1, hdir, hvt, hnew]
    by_cases hsk : basenameSegs (sd ++ b :: splitSlash target) = "SKILL.md"
    · simp [hsk]
    · cases hv2 : validateSkillPath true
          (dirnameSegs (sd ++ b :: splitSlash target) ++ [m]) (sd ++ [b]) with
      | error e => simp [hsk, hv2]
      | ok q =>
        cases hex : existsFs fs (sd ++ b :: splitSlash target) <;>
          cases hex2 : existsFs fs q <;> simp [hsk, hv2, hex, hex2]
  · simp only [moveFile, hv1, hdir, hvt, hvnp]
    by_cases hsk : basenameSegs (sd ++ b :: splitSlash target) = "SKILL.md"
    · simp [hsk]
    · cases hex : existsFs fs (sd ++ b :: splitSlash target) <;>
        cases hex2 : existsFs fs (sd ++ b :: splitSlash newPath) <;>
          simp [hsk, hex, hex2]

/-- Witness for `protected_iff_basename`: the nested target
`sub/SKILL.md` is protected from deletion while the differently-cased
`skill.md` is not. -/
theorem protected_iff_basename_witness :
    (deleteFileOrFolder ["s"] [] (["s"] ++ ["demo", "SKILL.md"]) "sub/SKILL.md").1 =
      .error "Cannot delete SKILL.md - it is required" ∧
    ¬((deleteFileOrFolder ["s"] [] (["s"] ++ ["demo", "SKILL.md"]) "skill.md").1 =
      .error "Cannot delete SKILL.md - it is required") := by
  constructor
  · exact ((protected_iff_basename ["s"] "demo" [] "sub/SKILL.md" "n.md" "n.md" "p.md"
      (by decide) (by decide) (by decide) rfl (by decide)).1).mpr (by decide)
  · intro hc
    exact absurd
      (((protected_iff_basename ["s"] "demo" [] "skill.md" "n.md" "n.md" "p.md"
        (by decide) (by decide) (by decide) rfl (by decide)).1).mp hc)
      (by decide)

/-- Witness for `sanitizeSkillName_idempotent_and_valid` at a concrete
name that needs lower-casing and stripping. -/
theorem sanitizeSkillName_idempotent_and_valid_witness :
    sanitizeSkillName "myskill9" = .ok "myskill9" ∧ "myskill9" ≠ "" ∧
      (∀ c ∈ ("myskill9" : String).toList, skillChar c = true) ∧
      "myskill9" ≠ "skill" :=
  sanitizeSkillName_idempotent_and_valid "My Skill 9!" "myskill9" rfl

theorem listStarts_refl {α : Type} [DecidableEq α] (l : List α) :
    listStarts l l = true := by
  have h := listStarts_append l []
  simpa using h

theorem existsFs_of_lookup {fs : Fs} {p : List String} {fd : FileData}
    (h : lookupFile fs p = some fd) : existsFs fs p = true := by
  unfold lookupFile at h
  cases hf : fs.find? (fun e => e.1 = p) with
  | none => rw [hf] at h; simp at h
  | some e =>
    have hmem := List.mem_of_find?_eq_some hf
    have hpe : e.1 = p := by simpa using List.find?_some hf
    unfold existsFs
    apply List.any_eq_true.mpr
    exact ⟨e, hmem, by rw [hpe]; exact listStarts_refl p⟩

/-- Claim C7 (confirmed).  Loading an existing file over 10 MiB succeeds
with empty content, `editable = false` and the `tooBig` flag, whatever
the extension; loading an existing file at or below 10 MiB with an
editable extension returns its content with `editable = true`. -/
theorem loadFile_size_gate (sd rest : List String) (fs : Fs) (fd : FileData)
    (hsd : cleanSegs sd = true) (hrest : cleanSegs rest = true)
    (hlook : lookupFile fs (sd ++ rest) = some fd) :
    (MAX_FILE_SIZE < fd.size →
      loadFile sd fs (sd ++ rest) =
        .ok ("", ⟨basenameSegs (sd ++ rest), sd ++ rest,
          getFileType (basenameSegs (sd ++ rest)), fd.size, false, true⟩)) ∧
    (fd.size ≤ MAX_FILE_SIZE → isEditableFile (basenameSegs (sd ++ rest)) = true →
      loadFile sd fs (sd ++ rest) =
        .ok (fd.content, ⟨basenameSegs (sd ++ rest), sd ++ rest,
          getFileType (basenameSegs (sd ++ rest)), fd.size, true, false⟩)) := by
  have hv : validateSkillPath true (sd ++ rest) sd = .ok (sd ++ rest) :=
    validateSkillPath_clean_ok hsd hrest
  have hex : existsFs fs (sd ++ rest) = true := existsFs_of_lookup hlook
  constructor
  · intro hbig
    simp only [loadFile, hv, hex, hlook]
    rw [if_neg (by simp), if_pos hbig]
  · intro hsize hed
    simp only [loadFile, hv, hex, hlook]
    rw [if_neg (by simp), if_neg (by omega), if_pos hed]

/-- Witness for `loadFile_size_gate`: a 10 MiB + 1 byte binary is
reported `tooBig`, a small markdown file is returned with content. -/
theorem loadFile_size_gate_witness :
    loadFile ["s"] [(["s", "b", "big.bin"], ⟨"", 10485761⟩)] (["s"] ++ ["b", "big.bin"]) =
      .ok ("", ⟨basenameSegs (["s"] ++ ["b", "big.bin"]), ["s"] ++ ["b", "big.bin"],
        getFileType (basenameSegs (["s"] ++ ["b", "big.bin"])), 10485761, false, true⟩) ∧
    loadFile ["s"] [(["s", "b", "a.md"], ⟨"hi", 2⟩)] (["s"] ++ ["b", "a.md"]) =
      .ok ("hi", ⟨basenameSegs (["s"] ++ ["b", "a.md"]), ["s"] ++ ["b", "a.md"],
        getFileType (basenameSegs (["s"] ++ ["b", "a.md"])), 2, true, false⟩) :=
  ⟨(loadFile_size_gate ["s"] ["b", "big.bin"] [(["s", "b", "big.bin"], ⟨"", 10485761⟩)]
      ⟨"", 10485761⟩ (by decide) (by decide) rfl).1 (by decide),
   (loadFile_size_gate ["s"] ["b", "a.md"] [(["s", "b", "a.md"], ⟨"hi", 2⟩)]
      ⟨"hi", 2⟩ (by decide) (by decide) rfl).2 (by decide) (by decide)⟩

/-- No file stands before a folder. -/
def foldersFirst (l : List TreeNode) : Prop :=
  l.Pairwise (fun a b => nodeIsFolder b = true → nodeIsFolder a = true)

/-- Within a kind, names ascend. -/
def namesSorted (l : List TreeNode) : Prop :=
  l.Pairwise (fun a b =>
    nodeIsFolder a = nodeIsFolder b → strLeB (nodeName a) (nodeName b) = true)

/-- The ordering invariant holding recursively at every level. -/
inductive TreeOrdered : TreeNode → Prop where
  | file : ∀ n p ft sz ed, TreeOrdered (.file n p ft sz ed)
  | folder : ∀ n p cs, foldersFirst cs → namesSorted cs →
      (∀ c ∈ cs, TreeOrdered c) → TreeOrdered (.folder n p cs)

theorem strLeList_total : ∀ a b : List Char,
    strLeList a b = true ∨ strLeList b a = true := by
  intro a
  induction a with
  | nil => intro b; left; rfl
  | cons x xs ih =>
    intro b
    cases b with
    | nil => right; rfl
    | cons y ys =>
      by_cases h1 : x.toNat < y.toNat
      · left; unfold strLeList; rw [if_pos h1]
      · by_cases h2 : y.toNat < x.toNat
        · right; unfold strLeList; rw [if_pos h2]
        · rcases ih ys with h | h
          · left; unfold strLeList; rw [if_neg h1, if_neg h2]; exact h
          · right; unfold strLeList; rw [if_neg h2, if_neg h1]; exact h

theorem strLeList_trans : ∀ a b c : List Char, strLeList a b = true →
    strLeList b c = true → strLeList a c = true := by
  intro a
  induction a with
  | nil => intro b c _ _; rfl
  | cons x xs ih =>
    intro b c hab hbc
    cases b with
    | nil => exact absurd hab (by simp [strLeList])
    | cons y ys =>
      cases c with
      | nil => exact absurd hbc (by simp [strLeList])
      | cons z zs =>
        unfold strLeList at hab hbc ⊢
        by_cases h1 : x.toNat < y.toNat
        · rw [if_pos h1] at hab
          by_cases h3 : y.toNat < z.toNat
          · rw [if_pos (by omega)]
          · by_cases h4 : z.toNat < y.toNat
            · rw [if_neg h3, if_pos h4] at hbc
              exact absurd hbc (by simp)
            · rw [if_pos (by omega)]
        · by_cases h2 : y.toNat < x.toNat
          · rw [if_neg h1, if_pos h2] at hab
            exact absurd hab (by simp)
          · rw [if_neg h1, if_neg h2] at hab
            by_cases h3 : y.toNat < z.toNat
            · rw [if_pos (by omega)]
            · by_cases h4 : z.toNat < y.toNat
              · rw [if_neg h3, if_pos h4] at hbc
                exact absurd hbc (by simp)
              · rw [if_neg h3, if_neg h4] at hbc
                rw [if_neg (by omega), if_neg (by omega)]
                exact ih ys zs hab hbc

instance : IsTotal TreeNode nodeLe where
  total a b := by
    unfold nodeLe nodeLeB
    by_cases hf : nodeIsFolder a = nodeIsFolder b
    · rw [if_pos hf, if_pos hf.symm]
      exact strLeList_total (nodeName a).toList (nodeName b).toList
    · rw [if_neg hf, if_neg (fun hc => hf hc.symm)]
      cases ha : nodeIsFolder a
      · right
        cases hb : nodeIsFolder b
        · exact absurd (ha.trans hb.symm) hf
        · rfl
      · left; rfl

instance : IsTrans TreeNode nodeLe where
  trans a b c hab hbc := by
    unfold nodeLe nodeLeB at hab hbc ⊢
    by_cases h1 : nodeIsFolder a = nodeIsFolder b
    · by_cases h2 : nodeIsFolder b = nodeIsFolder c
      · rw [if_pos h1] at hab
        rw [if_pos h2] at hbc
        rw [if_pos (h1.trans h2)]
        exact strLeList_trans _ _ _ hab hbc
      · rw [if_neg h2] at hbc
        rw [if_neg (fun hc => h2 (h1.symm.trans hc))]
        rw [h1]; exact hbc
    · by_cases h2 : nodeIsFolder b = nodeIsFolder c
      · rw [if_neg h1] at hab
        rw [if_neg (fun hc => h1 (hc.trans h2.symm))]
        exact hab
      · rw [if_neg h1] at hab
        rw [if_neg h2] at hbc
        cases hb : nodeIsFolder b
        · rw [hb] at hbc; exact absurd hbc (by simp)
        · exact absurd (hab.trans hb.symm) h1

theorem nodeLe_foldersFirst {a b : TreeNode} (h : nodeLe a b) :
    nodeIsFolder b = true → nodeIsFolder a = true := by
  intro hb
  unfold nodeLe nodeLeB at h
  by_cases hf : nodeIsFolder a = nodeIsFolder b
  · rw [hf]; exact hb
  · rw [if_neg hf] at h; exact h

theorem nodeLe_names {a b : TreeNode} (h : nodeLe a b) :
    nodeIsFolder a = nodeIsFolder b → strLeB (nodeName a) (nodeName b) = true := by
  intro heq
  unfold nodeLe nodeLeB at h
  rw [if_pos heq] at h
  exact h

theorem ordered_of_sorted {l : List TreeNode} (h : List.Sorted nodeLe l) :
    foldersFirst l ∧ namesSorted l :=
  ⟨h.imp (fun hab => nodeLe_foldersFirst hab),
   h.imp (fun hab => nodeLe_names hab)⟩

theorem mem_collectNodes : ∀ (rel : String) (es : List FsEntry) (t : TreeNode),
    t ∈ collectNodes rel es → ∃ e ∈ es, t = buildNode rel e := by
  intro rel es
  induction es with
  | nil => intro t ht; exact absurd ht (by simp [collectNodes])
  | cons e rest ih =>
    intro t ht
    rw [collectNodes] at ht
    split at ht
    · rcases ih t ht with ⟨e1, he1, hte⟩
      exact ⟨e1, by simp [he1], hte⟩
    · rcases List.mem_cons.mp ht with h1 | h1
      · exact ⟨e, by simp, h1⟩
      · rcases ih t h1 with ⟨e1, he1, hte⟩
        exact ⟨e1, by simp [he1], hte⟩

theorem buildNode_ordered :
    ∀ (N : Nat) (e : FsEntry), sizeOf e ≤ N → ∀ rel, TreeOrdered (buildNode rel e) := by
  intro N
  induction N with
  | zero =>
    intro e hle
    exact absurd hle (by cases e <;> simp)
  | succ n ih =>
    intro e hle rel
    cases e with
    | file nm sz => exact TreeOrdered.file _ _ _ _ _
    | dir nm cs =>
      rw [buildNode]
      have hsorted :=
        List.sorted_insertionSort nodeLe (collectNodes (childPath rel nm) cs)
      refine TreeOrdered.folder _ _ _ (ordered_of_sorted hsorted).1
        (ordered_of_sorted hsorted).2 ?_
      intro c hc
      have hc2 : c ∈ collectNodes (childPath rel nm) cs :=
        (List.perm_insertionSort nodeLe _).mem_iff.mp hc
      rcases mem_collectNodes _ cs c hc2 with ⟨e1, he1, hce⟩
      have hsz : sizeOf e1 ≤ n := by
        have h1 : sizeOf e1 < sizeOf cs := List.sizeOf_lt_of_mem he1
        have h2 : sizeOf (FsEntry.dir nm cs) ≤ n + 1 := hle
        simp only [FsEntry.dir.sizeOf_spec] at h2
        omega
      rw [hce]
      exact ih e1 hsz _

/-- Claim C4 (confirmed).  At every level of every tree `buildFileTree`
returns, all folder nodes precede all file nodes and, within each kind,
names ascend; in particular a directory holding files `b.txt`, `a.txt`
and folder `z` lists as `[z (folder), a.txt, b.txt]`. -/
theorem buildFileTree_ordered :
    (∀ es : List FsEntry,
      foldersFirst (buildFileTree es) ∧ namesSorted (buildFileTree es) ∧
        ∀ t ∈ buildFileTree es, TreeOrdered t) ∧
    buildFileTree [.file "b.txt" 1, .file "a.txt" 2, .dir "z" []] =
      [.folder "z" "z" [], .file "a.txt" "a.txt" "text" 2 true,
       .file "b.txt" "b.txt" "text" 1 true] := by
  constructor
  · intro es
    have hsorted := List.sorted_insertionSort nodeLe (collectNodes "" es)
    refine ⟨(ordered_of_sorted hsorted).1, (ordered_of_sorted hsorted).2, ?_⟩
    intro t ht
    have ht2 : t ∈ collectNodes "" es :=
      (List.perm_insertionSort nodeLe _).mem_iff.mp ht
    rcases mem_collectNodes "" es t ht2 with ⟨e1, _, hte⟩
    rw [hte]
    exact buildNode_ordered (sizeOf e1) e1 (le_refl _) ""
  · simp only [buildFileTree, collectNodes, buildNode]
    rfl

/-- Unfolding of a successful `sanitizeFileName`. -/
theorem sanitizeFileName_ok_iff (x s : String) :
    sanitizeFileName x = .ok s ↔
      s = (x.toList.filter fileChar).asString ∧
      ¬(s.length = 0) ∧ ¬(255 < s.length) := by
  simp only [sanitizeFileName]
  constructor
  · intro h
    split at h
    · exact absurd h (by simp)
    · split at h
      · exact absurd h (by simp)
      · rename_i h1 h2
        have hy : s = (x.toList.filter fileChar).asString := by
          simpa [eq_comm] using h
        subst hy
        exact ⟨rfl, h1, h2⟩
  · rintro ⟨hy, h1, h2⟩
    subst hy
    rw [if_neg h1, if_neg h2]

/-- A segment a successful `sanitizeRelativePath` emits: nonempty, not a
traversal segment, at most 255 characters, all characters from the
file-name class. -/
def goodSeg (s : String) : Bool :=
  cleanSeg s && s.toList.all fileChar && decide (s.length ≤ 255)

theorem goodSeg_cleanSeg {s : String} (h : goodSeg s = true) : cleanSeg s = true := by
  simp only [goodSeg, Bool.and_eq_true] at h
  exact h.1.1

theorem sanitizeFileName_fixed {s : String} (hg : goodSeg s = true) :
    sanitizeFileName s = .ok s := by
  have hparts : (cleanSeg s = true ∧ s.toList.all fileChar = true) ∧ s.length ≤ 255 := by
    simpa [goodSeg] using hg
  have hfix : s.toList.filter fileChar = s.toList :=
    List.filter_eq_self.mpr (List.all_eq_true.mp hparts.1.2)
  have hne : ¬(s = "") := by
    intro hc
    have := goodSeg_cleanSeg hg
    rw [hc] at this
    simp [cleanSeg] at this
  apply (sanitizeFileName_ok_iff s s).mpr
  refine ⟨by rw [hfix]; exact rfl, ?_, by omega⟩
  intro hc
  apply hne
  cases s with
  | mk data =>
    cases data with
    | nil => rfl
    | cons c cs => simp [String.length] at hc

theorem sanitizeSegments_ok_all : ∀ {l segs : List String},
    sanitizeSegments l = .ok segs → ∀ s ∈ segs, goodSeg s = true := by
  intro l
  induction l with
  | nil =>
    intro segs h s hs
    rw [sanitizeSegments] at h
    have : segs = [] := by simpa [eq_comm] using h
    rw [this] at hs
    exact absurd hs (by simp)
  | cons seg rest ih =>
    intro segs h s hs
    cases hf : sanitizeFileName seg with
    | error e =>
      simp only [sanitizeSegments, hf] at h
      exact absurd h (by simp)
    | ok t =>
      simp only [sanitizeSegments, hf] at h
      split at h
      · exact absurd h (by simp)
      · rename_i hdots
        cases hr : sanitizeSegments rest with
        | error e => rw [hr] at h; exact absurd h (by simp)
        | ok ss =>
          rw [hr] at h
          have hsegs : t :: ss = segs := by simpa using h
          rcases (sanitizeFileName_ok_iff seg t).mp hf with ⟨ht, h1, h2⟩
          rw [← hsegs] at hs
          rcases List.mem_cons.mp hs with h3 | h3
          · subst h3
            have hchars : s.toList.all fileChar = true := by
              apply List.all_eq_true.mpr
              intro c hc
              rw [ht] at hc
              exact (List.mem_filter.mp
                (show c ∈ List.filter fileChar seg.toList from hc)).2
            have hne : ¬(s = "") := by
              intro hc
              rw [hc] at h1
              simp at h1
            rcases not_or.mp hdots with ⟨hd1, hd2⟩
            simp only [goodSeg, cleanSeg, Bool.and_eq_true]
            refine ⟨⟨?_, hchars⟩, by simp; omega⟩
            simp [hne, hd1, hd2]
          · exact ih hr s h3

theorem sanitizeSegments_fixed : ∀ {segs : List String},
    (∀ s ∈ segs, goodSeg s = true) → sanitizeSegments segs = .ok segs := by
  intro segs
  induction segs with
  | nil => intro _; rfl
  | cons s rest ih =>
    intro h
    have hs := h s (by simp)
    have hclean : (cleanSeg s = true ∧ s.toList.all fileChar = true) ∧ s.length ≤ 255 := by
      simpa [goodSeg] using hs
    have hdots : ¬(s = "." ∨ s = "..") := by
      have := hclean.1.1
      simp only [cleanSeg, Bool.and_eq_true] at this
      rintro (hc | hc)
      · rw [hc] at this; simp at this
      · rw [hc] at this; simp at this
    simp only [sanitizeSegments, sanitizeFileName_fixed hs]
    rw [if_neg hdots, ih (fun t ht => h t (by simp [ht]))]

/-- Validation accepts the base directory itself. -/
theorem validateSkillPath_clean_self {base : List String}
    (hb : cleanSegs base = true) : validateSkillPath true base base = .ok base := by
  have h := validateSkillPath_clean_ok hb (show cleanSegs ([] : List String) = true from rfl)
  simpa using h

theorem lookupFile_write_self (fs : Fs) (p : List String) (c : String) :
    lookupFile (writeFs fs p c) p = some ⟨c, c.length⟩ := by
  unfold lookupFile writeFs
  rw [List.find?_cons_of_pos _ (by simp)]
  rfl

theorem find?_filter_other {p q : List String} (hne : ¬(q = p)) :
    ∀ fs : Fs, List.find? (fun e => e.1 = q) (fs.filter (fun e => ¬(e.1 = p))) =
      List.find? (fun e => e.1 = q) fs := by
  intro fs
  induction fs with
  | nil => rfl
  | cons e rest ih =>
    by_cases heq : e.1 = q
    · rw [List.filter_cons_of_pos (by simp [heq, hne])]
      rw [List.find?_cons_of_pos _ (by simp [heq]), List.find?_cons_of_pos _ (by simp [heq])]
    · by_cases hep : e.1 = p
      · rw [List.filter_cons_of_neg (by simp [hep])]
        rw [ih, List.find?_cons_of_neg _ (by simp [heq])]
      · rw [List.filter_cons_of_pos (by simp [hep])]
        rw [List.find?_cons_of_neg _ (by simp [heq]), List.find?_cons_of_neg _ (by simp [heq])]
        exact ih

theorem lookupFile_write_other (fs : Fs) {p q : List String} (c : String)
    (hne : ¬(q = p)) : lookupFile (writeFs fs p c) q = lookupFile fs q := by
  unfold lookupFile writeFs
  have hne2 : ¬(p = q) := fun hc => hne hc.symm
  rw [List.find?_cons_of_neg _ (by simp [hne2]), find?_filter_other hne fs]

theorem foldl_slash_shift (rest : List String) :
    ∀ a b : String, rest.foldl (fun x t => x ++ "/" ++ t) (a ++ b) =
      a ++ rest.foldl (fun x t => x ++ "/" ++ t) b := by
  induction rest with
  | nil => intro a b; rfl
  | cons t ts ih =>
    intro a b
    rw [List.foldl_cons, List.foldl_cons, String.append_assoc a b,
      String.append_assoc a (b ++ "/") t]
    exact ih a (b ++ "/" ++ t)

theorem joinSegs_cons (s t : String) (rest : List String) :
    joinSegs (s :: t :: rest) = s ++ "/" ++ joinSegs (t :: rest) := by
  show (t :: rest).foldl (fun x u => x ++ "/" ++ u) s = _
  rw [List.foldl_cons]
  have h := foldl_slash_shift rest (s ++ "/") t
  rw [show s ++ "/" ++ t = (s ++ "/") ++ t from rfl, h]
  rfl

theorem toList_append (a b : String) : (a ++ b).toList = a.toList ++ b.toList :=
  String.data_append a b

theorem splitCharsAux_no_sep (isSep : Char → Bool) :
    ∀ (l cur : List Char), (∀ c ∈ l, isSep c = false) →
      splitCharsAux isSep l cur = [cur.reverse ++ l] := by
  intro l
  induction l with
  | nil => intro cur _; simp [splitCharsAux]
  | cons c cs ih =>
    intro cur h
    rw [splitCharsAux, if_neg (by simp [h c (by simp)])]
    rw [ih (c :: cur) (fun d hd => h d (by simp [hd]))]
    simp

theorem splitCharsAux_sep_append (isSep : Char → Bool) (sep : Char)
    (hsep : isSep sep = true) :
    ∀ (l cur rest : List Char), (∀ c ∈ l, isSep c = false) →
      splitCharsAux isSep (l ++ sep :: rest) cur =
        (cur.reverse ++ l) :: splitCharsAux isSep rest [] := by
  intro l
  induction l with
  | nil =>
    intro cur rest _
    rw [List.nil_append, splitCharsAux, if_pos hsep]
    simp
  | cons c cs ih =>
    intro cur rest h
    rw [List.cons_append, splitCharsAux, if_neg (by simp [h c (by simp)])]
    rw [ih (c :: cur) rest (fun d hd => h d (by simp [hd]))]
    simp

theorem fileChar_not_sep {c : Char} (h : fileChar c = true) : sepChar c = false := by
  simp only [fileChar, Bool.or_eq_true, Bool.and_eq_true, decide_eq_true_eq,
    beq_iff_eq] at h
  simp only [sepChar, Bool.or_eq_false_iff, beq_eq_false_iff_ne, ne_eq]
  omega

theorem goodSeg_chars_not_sep {s : String} (h : goodSeg s = true) :
    ∀ c ∈ s.toList, sepChar c = false := by
  intro c hc
  have hparts : (cleanSeg s = true ∧ s.toList.all fileChar = true) ∧ s.length ≤ 255 := by
    simpa [goodSeg] using h
  exact fileChar_not_sep (List.all_eq_true.mp hparts.1.2 c hc)

theorem goodSeg_ne_empty {s : String} (h : goodSeg s = true) : ¬(s = "") := by
  intro hc
  have := goodSeg_cleanSeg h
  rw [hc] at this
  simp [cleanSeg] at this

theorem splitSeps_joinSegs : ∀ {segs : List String},
    (∀ s ∈ segs, goodSeg s = true) → ¬(segs = []) →
      splitSeps (joinSegs segs) = segs := by
  intro segs
  induction segs with
  | nil => intro _ hne; exact absurd rfl hne
  | cons s rest ih =>
    intro h _
    cases rest with
    | nil =>
      have hone : joinSegs [s] = s := rfl
      rw [hone]
      unfold splitSeps
      rw [splitCharsAux_no_sep sepChar s.toList []
        (goodSeg_chars_not_sep (h s (by simp)))]
      simp only [List.reverse_nil, List.nil_append, List.map_cons, List.map_nil]
      rw [List.filter_cons_of_pos (by simpa using goodSeg_ne_empty (h s (by simp)))]
      rfl
    | cons t ts =>
      rw [joinSegs_cons]
      unfold splitSeps
      have hchars : (s ++ "/" ++ joinSegs (t :: ts)).toList =
          s.toList ++ '/' :: (joinSegs (t :: ts)).toList := by
        rw [toList_append, toList_append]
        simp
      rw [hchars]
      rw [splitCharsAux_sep_append sepChar '/' rfl s.toList [] _
        (goodSeg_chars_not_sep (h s (by simp)))]
      simp only [List.reverse_nil, List.nil_append, List.map_cons]
      rw [List.filter_cons_of_pos (by simpa using goodSeg_ne_empty (h s (by simp)))]
      have htail := ih (fun u hu => h u (by simp [hu])) (by simp)
      unfold splitSeps at htail
      rw [show (s.toList.asString) = s from rfl]
      rw [htail]

theorem sanitizeSegments_ne_nil {a : String} {l segs : List String}
    (h : sanitizeSegments (a :: l) = .ok segs) : ¬(segs = []) := by
  intro hc
  subst hc
  cases hf : sanitizeFileName a with
  | error e =>
    simp only [sanitizeSegments, hf] at h
    exact absurd h (by simp)
  | ok t =>
    simp only [sanitizeSegments, hf] at h
    split at h
    · exact absurd h (by simp)
    · cases hr : sanitizeSegments l with
      | error e => rw [hr] at h; exact absurd h (by simp)
      | ok ss => rw [hr] at h; exact absurd h (by simp)

theorem sanitizeRelativePath_ok_all {x : String} {segs : List String}
    (h : sanitizeRelativePath x = .ok segs) :
    (∀ s ∈ segs, goodSeg s = true) ∧ ¬(segs = []) := by
  simp only [sanitizeRelativePath] at h
  split at h
  · exact absurd h (by simp)
  · split at h
    · exact absurd h (by simp)
    · rename_i hx hsegs
      refine ⟨sanitizeSegments_ok_all h, ?_⟩
      cases hsplit : splitSeps x with
      | nil => exact absurd hsplit hsegs
      | cons a l =>
        rw [hsplit] at h
        exact sanitizeSegments_ne_nil h

theorem sanitizeRelativePath_fixed {segs : List String}
    (h : ∀ s ∈ segs, goodSeg s = true) (hne : ¬(segs = [])) :
    sanitizeRelativePath (joinSegs segs) = .ok segs := by
  have hsplit := splitSeps_joinSegs h hne
  have hjoin_ne : ¬(joinSegs segs = "") := by
    intro hc
    rw [hc] at hsplit
    exact hne (by simpa using hsplit.symm)
  simp only [sanitizeRelativePath, hsplit]
  rw [if_neg hjoin_ne, if_neg hne]
  exact sanitizeSegments_fixed h

/-- Claim C6 (confirmed).  A three-file batch whose middle file's name
sanitizes to nothing uploads best-effort: the call succeeds with count 2,
both valid files are written at their sanitized destinations, and the
invalid name is absent from the uploaded-names list. -/
theorem uploadFiles_best_effort (sd : List String) (b : String) (fs : Fs)
    (f1 f2 f3 : UploadFile) (s1 s3 : List String) (e2 : String)
    (hsd : cleanSegs sd = true) (hb : cleanSeg b = true)
    (h1 : sanitizeRelativePath f1.name = .ok s1)
    (h2 : sanitizeRelativePath f2.name = .error e2)
    (h3 : sanitizeRelativePath f3.name = .ok s3)
    (hne : ¬(s1 = s3)) :
    uploadFiles sd fs (sd ++ [b, "SKILL.md"]) [f1, f2, f3] "" =
      (.ok ([joinSegs s1, joinSegs s3], 2),
       writeFs (writeFs fs ((sd ++ [b]) ++ s1) f1.data) ((sd ++ [b]) ++ s3) f3.data) ∧
    lookupFile (writeFs (writeFs fs ((sd ++ [b]) ++ s1) f1.data) ((sd ++ [b]) ++ s3) f3.data)
        ((sd ++ [b]) ++ s1) = some ⟨f1.data, f1.data.length⟩ ∧
    lookupFile (writeFs (writeFs fs ((sd ++ [b]) ++ s1) f1.data) ((sd ++ [b]) ++ s3) f3.data)
        ((sd ++ [b]) ++ s3) = some ⟨f3.data, f3.data.length⟩ ∧
    ¬(f2.name ∈ [joinSegs s1, joinSegs s3]) := by
  have hsdb : cleanSegs (sd ++ [b]) = true :=
    cleanSegs_append hsd (cleanSegs_cons hb (by decide))
  have hv1 : validateSkillPath true (sd ++ [b, "SKILL.md"]) sd =
      .ok (sd ++ [b, "SKILL.md"]) :=
    validateSkillPath_clean_ok hsd (cleanSegs_cons hb (by decide))
  have hdir : dirnameSegs (sd ++ [b, "SKILL.md"]) = sd ++ [b] := by
    rw [show sd ++ [b, "SKILL.md"] = (sd ++ [b]) ++ ["SKILL.md"] by simp]
    exact dirnameSegs_concat _ _
  have hvt : validateSkillPath true (sd ++ [b]) (sd ++ [b]) = .ok (sd ++ [b]) :=
    validateSkillPath_clean_self hsdb
  have hg1 := sanitizeRelativePath_ok_all h1
  have hg3 := sanitizeRelativePath_ok_all h3
  have hc1 : cleanSegs s1 = true :=
    List.all_eq_true.mpr (fun s hs => goodSeg_cleanSeg (hg1.1 s hs))
  have hc3 : cleanSegs s3 = true :=
    List.all_eq_true.mpr (fun s hs => goodSeg_cleanSeg (hg3.1 s hs))
  have hd1 : validateSkillPath true ((sd ++ [b]) ++ s1) (sd ++ [b]) =
      .ok ((sd ++ [b]) ++ s1) := validateSkillPath_clean_ok hsdb hc1
  have hd3 : validateSkillPath true ((sd ++ [b]) ++ s3) (sd ++ [b]) =
      .ok ((sd ++ [b]) ++ s3) := validateSkillPath_clean_ok hsdb hc3
  have hp13 : ¬((sd ++ [b]) ++ s1 = (sd ++ [b]) ++ s3) := by
    intro hc
    exact hne (List.append_cancel_left hc)
  have hp31 : ¬((sd ++ [b]) ++ s3 = (sd ++ [b]) ++ s1) := fun hc => hp13 hc.symm
  refine ⟨?_, ?_, ?_, ?_⟩
  · simp only [uploadFiles, hv1, hdir]
    rw [if_pos trivial]
    simp only [hvt, List.foldl_cons, List.foldl_nil, uploadStep, h1, h2, h3, hd1, hd3]
    simp
  · rw [lookupFile_write_other _ _ hp13]
    exact lookupFile_write_self fs ((sd ++ [b]) ++ s1) f1.data
  · exact lookupFile_write_self _ ((sd ++ [b]) ++ s3) f3.data
  · intro hmem
    rcases List.mem_cons.mp hmem with hj | hj
    · rw [hj] at h2
      rw [sanitizeRelativePath_fixed hg1.1 hg1.2] at h2
      exact absurd h2 (by simp)
    · have hj3 : f2.name = joinSegs s3 := by simpa using hj
      rw [hj3] at h2
      rw [sanitizeRelativePath_fixed hg3.1 hg3.2] at h2
      exact absurd h2 (by simp)

/-- Witness for `uploadFiles_best_effort`: a batch `a.txt`, `###`,
`docs/c.md` uploads two files. -/
theorem uploadFiles_best_effort_witness :
    uploadFiles ["s"] [] (["s"] ++ ["b", "SKILL.md"]) [⟨"a.txt", "A"⟩, ⟨"###", "B"⟩, ⟨"docs/c.md", "C"⟩] "" =
      (.ok ([joinSegs ["a.txt"], joinSegs ["docs", "c.md"]], 2),
       writeFs (writeFs [] ((["s"] ++ ["b"]) ++ ["a.txt"]) "A") ((["s"] ++ ["b"]) ++ ["docs", "c.md"]) "C") ∧
    lookupFile (writeFs (writeFs [] ((["s"] ++ ["b"]) ++ ["a.txt"]) "A") ((["s"] ++ ["b"]) ++ ["docs", "c.md"]) "C")
        ((["s"] ++ ["b"]) ++ ["a.txt"]) = some ⟨"A", "A".length⟩ ∧
    lookupFile (writeFs (writeFs [] ((["s"] ++ ["b"]) ++ ["a.txt"]) "A") ((["s"] ++ ["b"]) ++ ["docs", "c.md"]) "C")
        ((["s"] ++ ["b"]) ++ ["docs", "c.md"]) = some ⟨"C", "C".length⟩ ∧
    ¬(("###" : String) ∈ [joinSegs ["a.txt"], joinSegs ["docs", "c.md"]]) :=
  uploadFiles_best_effort ["s"] "b" [] ⟨"a.txt", "A"⟩ ⟨"###", "B"⟩ ⟨"docs/c.md", "C"⟩
    ["a.txt"] ["docs", "c.md"] "Invalid filename - must contain at least one valid character"
    (by decide) (by decide) rfl rfl rfl (by decide)

theorem existsFs_filter_ne (fs : Fs) (p q : List String)
    (hqp : listStarts q p = false) :
    (fs.filter (fun e => ¬(e.1 = p))).any (fun e => listStarts q e.1) =
      fs.any (fun e => listStarts q e.1) := by
  induction fs with
  | nil => rfl
  | cons e rest ih =>
    by_cases hep : e.1 = p
    · rw [List.filter_cons_of_neg (by simp [hep]), List.any_cons, ih, hep, hqp]
      simp
    · rw [List.filter_cons_of_pos (by simp [hep]), List.any_cons, List.any_cons, ih]

theorem existsFs_write (fs : Fs) (p q : List String) (c : String) :
    existsFs (writeFs fs p c) q = (listStarts q p || existsFs fs q) := by
  unfold existsFs writeFs
  rw [List.any_cons]
  cases h : listStarts q p with
  | false => rw [existsFs_filter_ne fs p q h]
  | true => simp

theorem listStarts_append_left {α : Type} [DecidableEq α] (a b c : List α) :
    listStarts (a ++ b) (a ++ c) = listStarts b c := by
  induction a with
  | nil => rfl
  | cons x xs ih => simpa [listStarts] using ih

/-- Validation rejects a clean absolute path lying outside the base. -/
theorem validateSkillPath_clean_out {base p : List String}
    (hb : cleanSegs base = true) (hp : cleanSegs p = true)
    (hout : listStarts base p = false) :
    validateSkillPath true p base = .error "Invalid path - access denied" := by
  unfold validateSkillPath
  simp only [Bool.not_true, normSegs_clean hp, normSegs_clean hb,
    eq_self_iff_true, if_true]
  rw [if_neg (by rw [hout]; simp)]

/-- Claim C3 (confirmed).  Importing two external manifests whose parent
directories are both named `widget` produces bundles `widget` and then
`widget-1` (the first free suffixed slot), each created by copying the
manifest into a fresh bundle directory and reported as imported with its
resolved path; both bundles load independently afterwards through the
managed branch. -/
theorem loadSkill_import_dedup (sd d1 d2 : List String) (fs0 : Fs)
    (c1 c2 : FileData) (now : Nat)
    (hsd : cleanSegs sd = true)
    (hd1 : cleanSegs d1 = true) (hd2 : cleanSegs d2 = true)
    (hout1 : listStarts sd (d1 ++ ["widget", "SKILL.md"]) = false)
    (hout2 : listStarts sd (d2 ++ ["widget", "SKILL.md"]) = false)
    (hl1 : lookupFile fs0 (d1 ++ ["widget", "SKILL.md"]) = some c1)
    (hl2 : lookupFile fs0 (d2 ++ ["widget", "SKILL.md"]) = some c2)
    (hfree1 : existsFs fs0 (sd ++ ["widget", "SKILL.md"]) = false)
    (hfree2 : existsFs fs0 (sd ++ ["widget-1", "SKILL.md"]) = false) :
    ∃ fs1 fs2,
      loadSkill sd fs0 now true (d1 ++ ["widget", "SKILL.md"]) =
        (.ok ⟨c1.content, sd ++ ["widget", "SKILL.md"], true, some "widget"⟩, fs1) ∧
      loadSkill sd fs1 now true (d2 ++ ["widget", "SKILL.md"]) =
        (.ok ⟨c2.content, sd ++ ["widget-1", "SKILL.md"], true, some "widget-1"⟩, fs2) ∧
      (loadSkill sd fs2 now true (sd ++ ["widget", "SKILL.md"])).1 =
        .ok ⟨c1.content, sd ++ ["widget", "SKILL.md"], false, none⟩ ∧
      (loadSkill sd fs2 now true (sd ++ ["widget-1", "SKILL.md"])).1 =
        .ok ⟨c2.content, sd ++ ["widget-1", "SKILL.md"], false, none⟩ := by
  have he1 : cleanSegs (d1 ++ ["widget", "SKILL.md"]) = true :=
    cleanSegs_append hd1 (by decide)
  have he2 : cleanSegs (d2 ++ ["widget", "SKILL.md"]) = true :=
    cleanSegs_append hd2 (by decide)
  have hv1 := validateSkillPath_clean_out hsd he1 hout1
  have hv2 := validateSkillPath_clean_out hsd he2 hout2
  have hex1 : existsFs fs0 (d1 ++ ["widget", "SKILL.md"]) = true :=
    existsFs_of_lookup hl1
  have hsplit1 : d1 ++ ["widget", "SKILL.md"] = (d1 ++ ["widget"]) ++ ["SKILL.md"] := by
    simp
  have hsplit2 : d2 ++ ["widget", "SKILL.md"] = (d2 ++ ["widget"]) ++ ["SKILL.md"] := by
    simp
  have hb1 : basenameSegs (d1 ++ ["widget", "SKILL.md"]) = "SKILL.md" := by
    rw [hsplit1]; exact basenameSegs_concat _ _
  have hb2 : basenameSegs (d2 ++ ["widget", "SKILL.md"]) = "SKILL.md" := by
    rw [hsplit2]; exact basenameSegs_concat _ _
  have hdn1 : basenameSegs (dirnameSegs (d1 ++ ["widget", "SKILL.md"])) = "widget" := by
    rw [hsplit1, dirnameSegs_concat]; exact basenameSegs_concat _ _
  have hdn2 : basenameSegs (dirnameSegs (d2 ++ ["widget", "SKILL.md"])) = "widget" := by
    rw [hsplit2, dirnameSegs_concat]; exact basenameSegs_concat _ _
  have hwname : sanitizeSkillName "widget" = .ok "widget" := rfl
  have hfind1 : findFreeSkillName fs0 sd "widget" = "widget" := by
    unfold findFreeSkillName
    rw [hfree1]
    simp
  refine ⟨writeFs fs0 (sd ++ ["widget", "SKILL.md"]) c1.content,
    writeFs (writeFs fs0 (sd ++ ["widget", "SKILL.md"]) c1.content)
      (sd ++ ["widget-1", "SKILL.md"]) c2.content, ?_, ?_, ?_, ?_⟩
  · simp only [loadSkill, hv1, normSegs_clean he1, hex1, hb1, hdn1, hl1, hwname,
      hfind1]
    simp [show strToLower "SKILL.md" = "skill.md" from rfl]
  · have he2w : ¬(d2 ++ ["widget", "SKILL.md"] = sd ++ ["widget", "SKILL.md"]) := by
      intro hc
      rw [hc] at hout2
      rw [listStarts_append sd ["widget", "SKILL.md"]] at hout2
      exact absurd hout2 (by simp)
    have hl2w : lookupFile (writeFs fs0 (sd ++ ["widget", "SKILL.md"]) c1.content)
        (d2 ++ ["widget", "SKILL.md"]) = some c2 := by
      rw [lookupFile_write_other _ _ he2w]
      exact hl2
    have hex2w : existsFs (writeFs fs0 (sd ++ ["widget", "SKILL.md"]) c1.content)
        (d2 ++ ["widget", "SKILL.md"]) = true := existsFs_of_lookup hl2w
    have htaken : existsFs (writeFs fs0 (sd ++ ["widget", "SKILL.md"]) c1.content)
        (sd ++ ["widget", "SKILL.md"]) = true := by
      rw [existsFs_write, listStarts_refl]
      simp
    have hfree2w : existsFs (writeFs fs0 (sd ++ ["widget", "SKILL.md"]) c1.content)
        (sd ++ ["widget-1", "SKILL.md"]) = false := by
      rw [existsFs_write, hfree2, listStarts_append_left sd]
      decide
    have hcand : ("widget" ++ "-" ++ toString 1) = "widget-1" := rfl
    have hfind2 : findFreeSkillName
        (writeFs fs0 (sd ++ ["widget", "SKILL.md"]) c1.content) sd "widget" =
        "widget-1" := by
      unfold findFreeSkillName
      rw [htaken]
      simp only [freeNameLoop, hcand, hfree2w]
      simp
    simp only [loadSkill, hv2, normSegs_clean he2, hex2w, hb2, hdn2, hl2w, hwname,
      hfind2]
    simp [show strToLower "SKILL.md" = "skill.md" from rfl]
  · have hww1 : ¬(sd ++ ["widget", "SKILL.md"] = sd ++ ["widget-1", "SKILL.md"]) := by
      intro hc
      have := List.append_cancel_left hc
      simp at this
    have hlw : lookupFile
        (writeFs (writeFs fs0 (sd ++ ["widget", "SKILL.md"]) c1.content)
          (sd ++ ["widget-1", "SKILL.md"]) c2.content)
        (sd ++ ["widget", "SKILL.md"]) = some ⟨c1.content, c1.content.length⟩ := by
      rw [lookupFile_write_other _ _ hww1]
      exact lookupFile_write_self _ _ _
    have hexw : existsFs
        (writeFs (writeFs fs0 (sd ++ ["widget", "SKILL.md"]) c1.content)
          (sd ++ ["widget-1", "SKILL.md"]) c2.content)
        (sd ++ ["widget", "SKILL.md"]) = true := existsFs_of_lookup hlw
    have hvw : validateSkillPath true (sd ++ ["widget", "SKILL.md"]) sd =
        .ok (sd ++ ["widget", "SKILL.md"]) :=
      validateSkillPath_clean_ok hsd (by decide)
    simp only [loadSkill, hvw, hexw, hlw]
    simp
  · have hlw1 : lookupFile
        (writeFs (writeFs fs0 (sd ++ ["widget", "SKILL.md"]) c1.content)
          (sd ++ ["widget-1", "SKILL.md"]) c2.content)
        (sd ++ ["widget-1", "SKILL.md"]) = some ⟨c2.content, c2.content.length⟩ :=
      lookupFile_write_self _ _ _
    have hexw1 : existsFs
        (writeFs (writeFs fs0 (sd ++ ["widget", "SKILL.md"]) c1.content)
          (sd ++ ["widget-1", "SKILL.md"]) c2.content)
        (sd ++ ["widget-1", "SKILL.md"]) = true := existsFs_of_lookup hlw1
    have hvw1 : validateSkillPath true (sd ++ ["widget-1", "SKILL.md"]) sd =
        .ok (sd ++ ["widget-1", "SKILL.md"]) :=
      validateSkillPath_clean_ok hsd (by decide)
    simp only [loadSkill, hvw1, hexw1, hlw1]
    simp

/-- Witness for `loadSkill_import_dedup` at concrete external manifests
and an empty library. -/
theorem loadSkill_import_dedup_witness :
    ∃ fs1 fs2,
      loadSkill ["s"] [((["e1", "widget", "SKILL.md"] : List String), ⟨"c1", 2⟩),
          ((["e2", "widget", "SKILL.md"] : List String), ⟨"c2", 2⟩)] 0 true
          (["e1"] ++ ["widget", "SKILL.md"]) =
        (.ok ⟨FileData.content ⟨"c1", 2⟩, ["s"] ++ ["widget", "SKILL.md"], true, some "widget"⟩, fs1) ∧
      loadSkill ["s"] fs1 0 true (["e2"] ++ ["widget", "SKILL.md"]) =
        (.ok ⟨FileData.content ⟨"c2", 2⟩, ["s"] ++ ["widget-1", "SKILL.md"], true, some "widget-1"⟩, fs2) ∧
      (loadSkill ["s"] fs2 0 true (["s"] ++ ["widget", "SKILL.md"])).1 =
        .ok ⟨FileData.content ⟨"c1", 2⟩, ["s"] ++ ["widget", "SKILL.md"], false, none⟩ ∧
      (loadSkill ["s"] fs2 0 true (["s"] ++ ["widget-1", "SKILL.md"])).1 =
        .ok ⟨FileData.content ⟨"c2", 2⟩, ["s"] ++ ["widget-1", "SKILL.md"], false, none⟩ :=
  loadSkill_import_dedup ["s"] ["e1"] ["e2"]
    [((["e1", "widget", "SKILL.md"] : List String), ⟨"c1", 2⟩),
     ((["e2", "widget", "SKILL.md"] : List String), ⟨"c2", 2⟩)]
    ⟨"c1", 2⟩ ⟨"c2", 2⟩ 0 (by decide) (by decide) (by decide)
    (by decide) (by decide) rfl rfl rfl rfl

theorem cleanSeg_of_sanitizeSkillName {d n : String}
    (h : sanitizeSkillName d = .ok n) : cleanSeg d = true := by
  by_contra hc
  have hcases : d = "" ∨ d = "." ∨ d = ".." := by
    simp only [cleanSeg, Bool.and_eq_true, Bool.not_eq_true', decide_eq_false_iff_not,
      not_and_or, not_not] at hc
    tauto
  have herr : sanitizeSkillName "" = .error "Skill name must contain at least one valid character (lowercase letters, numbers, or hyphens)" := rfl
  have herr2 : sanitizeSkillName "." = .error "Skill name must contain at least one valid character (lowercase letters, numbers, or hyphens)" := rfl
  have herr3 : sanitizeSkillName ".." = .error "Skill name must contain at least one valid character (lowercase letters, numbers, or hyphens)" := rfl
  rcases hcases with h1 | h1 | h1 <;> rw [h1] at h
  · rw [herr] at h; exact absurd h (by simp)
  · rw [herr2] at h; exact absurd h (by simp)
  · rw [herr3] at h; exact absurd h (by simp)

/-- Claim C8 (corrected).  The description reported for a listed bundle
is the first `description:` line match of the regex anywhere in the
manifest — not only in a leading front-matter-style header — trimmed and
truncated to 200 characters, with the placeholder when no line matches.
The original claim's restriction to a leading header is refuted by
`listSkills_description_counterexample`. -/
theorem listSkills_description (sd : List String) (d : String) (fs : Fs)
    (c : FileData) (hsd : cleanSegs sd = true)
    (hname : ∃ n, sanitizeSkillName d = .ok n)
    (hl : lookupFile fs (sd ++ [d, "SKILL.md"]) = some c)
    (hmem : d ∈ bundleNames sd fs) :
    ∃ entry ∈ listSkills sd fs, entry.name = d ∧
      entry.pathR = sd ++ [d, "SKILL.md"] ∧
      entry.description = descriptionOf c.content ∧
      entry.description.length ≤ 200 := by
  rcases hname with ⟨n, hn⟩
  have hclean_d : cleanSeg d = true := cleanSeg_of_sanitizeSkillName hn
  have hv : validateSkillPath true (sd ++ [d, "SKILL.md"]) sd =
      .ok (sd ++ [d, "SKILL.md"]) :=
    validateSkillPath_clean_ok hsd (cleanSegs_cons hclean_d (by decide))
  refine ⟨⟨d, sd ++ [d, "SKILL.md"], descriptionOf c.content⟩, ?_, rfl, rfl, rfl, ?_⟩
  · unfold listSkills
    apply List.mem_filterMap.mpr
    refine ⟨d, hmem, ?_⟩
    simp only [hn, hv, hl]
  · unfold descriptionOf
    cases hm : descMatch c.content with
    | none =>
      show ("No description" : String).length ≤ 200
      decide
    | some cap =>
      show ((jsTrim cap).toList.take 200).asString.length ≤ 200
      have : ((jsTrim cap).toList.take 200).asString.length =
          ((jsTrim cap).toList.take 200).length := rfl
      rw [this, List.length_take]
      omega

/-- Witness for `listSkills_description` at a concrete library with a
front-matter description. -/
theorem listSkills_description_witness :
    ∃ entry ∈ listSkills ["s"]
        [((["s", "demo", "SKILL.md"] : List String),
          ⟨"---\ndescription: hello world\n---\nbody", 38⟩)],
      entry.name = "demo" ∧
      entry.pathR = ["s"] ++ ["demo", "SKILL.md"] ∧
      entry.description = descriptionOf (FileData.content ⟨"---\ndescription: hello world\n---\nbody", 38⟩) ∧
      entry.description.length ≤ 200 :=
  listSkills_description ["s"] "demo"
    [((["s", "demo", "SKILL.md"] : List String),
      ⟨"---\ndescription: hello world\n---\nbody", 38⟩)]
    ⟨"---\ndescription: hello world\n---\nbody", 38⟩
    (by decide) ⟨"demo", rfl⟩ rfl (by decide)

/-- Claim C8's counterexample: a manifest with no leading front-matter
header still yields a description taken from a `description:` line deep
in the body, where the claim promises the placeholder. -/
theorem listSkills_description_counterexample :
    listSkills ["s"]
        [((["s", "demo", "SKILL.md"] : List String),
          ⟨"# Title\nsome body text\ndescription: hidden in body", 49⟩)] =
      [⟨"demo", ["s", "demo", "SKILL.md"], "hidden in body"⟩] ∧
    ¬(("hidden in body" : String) = "No description") := ⟨rfl, by decide⟩

end SkillEditor
